import Mathlib

/-!
# ocs2 : `LinearInterpolation`, `NullLogicRules`, `LoopshapingCostOutputPattern`

A shallow embedding of the class `ocs2::LinearInterpolation<Data_T, Alloc>`
(ocs2_core/misc/LinearInterpolation.h), of the hooks of `ocs2::NullLogicRules`
(ocs2_core/logic/rules/NullLogicRules.h) and of
`LoopshapingCostOutputPattern::costQuadraticApproximation`
(ocs2_core/src/loopshaping/cost/LoopshapingCostOutputPattern.cpp).

Modelling conventions
* `scalar_t` (a C++ `double`) is modelled twice.  In `ocs2.LinearInterpolation` it is
  the ordered field `ℚ`: every finite `double` is a rational, comparisons of finite
  values are exact, and the arithmetic of lines 161-162 is carried out without rounding;
  infinities and NaN are outside this model.  In `ocs2.IEEE.LinearInterpolation` it is
  `IEEE.Double`, IEEE 754 binary64 with NaN, infinities, gradual underflow and rounding
  to nearest, ties to even, of every operation; the sign of zero is not modelled.
  Statements about values that depend on rounding or on NaN are made over the second.
* `Data_T` is any type with a zero, an addition and a scalar action of the scalars
  (`setZero`, `operator+`, `scalar * value`); over `ℚ` the theorems assume it is a
  `ℚ`-module where they need algebra, over `IEEE.Double` they assume nothing more.
* `const std::vector<...>*` is an `Option (List ...)`: `none` is the `NULL` pointer
  and `some v` points to the vector whose current content is `v`.
* `int` is modelled by `Int` and `size_t` by `Nat`; vector lengths are assumed to fit
  in an `int` and `int` arithmetic does not overflow.  A negative `int` converted to
  `size_t` is larger than every vector length, which is how `vecAt` and the loop guard
  of `find` treat it.
* A call ends in one of three ways, see `Outcome`: it returns, it throws, or it
  runs into undefined behaviour (dereferencing `NULL`, `front()`/`back()` of an
  empty vector).
* Eigen vectors and matrices are functions and `Matrix` over `ℚ` on finite index types;
  a vector or matrix assembled from blocks is indexed by a sum type.
* Classes that the sources use but do not contain (`HybridLogicRules`,
  `LoopshapingDefinition`, the solver of ocs2_sqp) are type parameters or are modelled
  from the specification, as their doc comments say.
-/

namespace ocs2

/-- The exceptions thrown in `LinearInterpolation.h`: `std::runtime_error` with its
message, and the `std::out_of_range` of `std::vector::at`. -/
inductive Exception where
  | runtime_error (what : String)
  | out_of_range
  deriving DecidableEq, Repr

/-- How a call ends: normal return, a thrown exception, or undefined behaviour. -/
inductive Outcome (α : Type) where
  | ok (a : α)
  | raise (e : Exception)
  | undefined
  deriving DecidableEq, Repr

namespace Outcome

/-- Sequencing: an exception or undefined behaviour ends the computation. -/
def bind {α β : Type} (x : Outcome α) (f : α → Outcome β) : Outcome β :=
  match x with
  | ok a => f a
  | raise e => raise e
  | undefined => undefined

/-- The call returned normally. -/
def isOk {α : Type} : Outcome α → Bool
  | ok _ => true
  | _ => false

/-- The call threw an exception. -/
def isRaise {α : Type} : Outcome α → Bool
  | raise _ => true
  | _ => false

end Outcome

/-- Dereference of a pointer: `NULL` is undefined behaviour. -/
def deref {α : Type} (p : Option α) : Outcome α :=
  match p with
  | some v => .ok v
  | none => .undefined

/-- The bounds-checked `std::vector::at` called with an `int` argument. -/
def vecAt {α : Type} (v : List α) (i : Int) : Outcome α :=
  if i < 0 then .raise .out_of_range
  else
    match v[i.toNat]? with
    | some x => .ok x
    | none => .raise .out_of_range

/-- The unchecked `std::vector::front`. -/
def vecFront {α : Type} (v : List α) : Outcome α :=
  match v.head? with
  | some x => .ok x
  | none => .undefined

/-- The unchecked `std::vector::back`. -/
def vecBack {α : Type} (v : List α) : Outcome α :=
  match v.getLast? with
  | some x => .ok x
  | none => .undefined

/-- The private members of `LinearInterpolation`, in declaration order, with the time
stamps read as exact numbers (`ℚ`); `IEEE.LinearInterpolation` below is the same class
with `double` time stamps. -/
structure LinearInterpolation (D : Type) where
  index_ : Int
  zeroFunction_ : Bool
  timeStampSize_ : Nat
  timeStampPtr_ : Option (List ℚ)
  dataPtr_ : Option (List D)

namespace LinearInterpolation

variable {D : Type}

/-- The default constructor `LinearInterpolation()`. -/
def defaultConstruct : LinearInterpolation D :=
  { index_ := 0, zeroFunction_ := false, timeStampSize_ := 0,
    timeStampPtr_ := none, dataPtr_ := none }

/-- The method `checkTimeStamp()`. -/
def checkTimeStamp (s : LinearInterpolation D) : Outcome Unit :=
  match s.timeStampPtr_ with
  | none => .raise (.runtime_error "timeStampPtr is not initialized.")
  | some _ =>
    if s.timeStampSize_ = 0 then
      .raise (.runtime_error "LinearInterpolation is not initialized.")
    else .ok ()

/-- The constructor `LinearInterpolation(timeStampPtr, dataPtr)`.  The member
initialiser `timeStampSize_(timeStampPtr->size())` dereferences the argument before
the body calls `checkTimeStamp()`. -/
def construct (timeStampPtr : Option (List ℚ)) (dataPtr : Option (List D)) :
    Outcome (LinearInterpolation D) :=
  (deref timeStampPtr).bind fun ts =>
    let s : LinearInterpolation D :=
      { index_ := 0, zeroFunction_ := false, timeStampSize_ := ts.length,
        timeStampPtr_ := timeStampPtr, dataPtr_ := dataPtr }
    (checkTimeStamp s).bind fun _ =>
      match dataPtr with
      | none => .raise (.runtime_error "dataPtr is not initialized.")
      | some _ => .ok s

/-- The method `reset()`. -/
def reset (s : LinearInterpolation D) : LinearInterpolation D :=
  { s with index_ := 0, zeroFunction_ := false }

/-- The method `setTimeStamp(timeStampPtr)`: the outcome and the object afterwards. -/
def setTimeStamp (s : LinearInterpolation D) (timeStampPtr : Option (List ℚ)) :
    Outcome Unit × LinearInterpolation D :=
  let s1 := reset s
  match timeStampPtr with
  | none => (.undefined, s1)
  | some ts =>
    let s2 := { s1 with timeStampSize_ := ts.length, timeStampPtr_ := timeStampPtr }
    (checkTimeStamp s2, s2)

/-- The method `setData(dataPtr)`: the outcome and the object afterwards. -/
def setData (s : LinearInterpolation D) (dataPtr : Option (List D)) :
    Outcome Unit × LinearInterpolation D :=
  let s2 := { reset s with dataPtr_ := dataPtr }
  match dataPtr with
  | none => (.raise (.runtime_error "dataPtr is not initialized."), s2)
  | some _ => (.ok (), s2)

/-- The method `setZero()`. -/
def setZero (s : LinearInterpolation D) : LinearInterpolation D :=
  { reset s with zeroFunction_ := true }

/-- The method `getGreatestLessTimeStampIndex()`. -/
def getGreatestLessTimeStampIndex (s : LinearInterpolation D) : Int :=
  s.index_

/-- The first loop of `find`: `for (int i=index_; i>=0; i--)`, entered with `i ≥ 0`.
The body sets `index = i` and breaks when `timeStamp.at(i) <= enquiryTime`. -/
def findBackwardLoop (ts : List ℚ) (enquiryTime : ℚ) : Nat → Outcome Int
  | 0 => (vecAt ts 0).bind fun _ => .ok 0
  | i + 1 =>
    (vecAt ts ((i + 1 : Nat) : Int)).bind fun x =>
      if x ≤ enquiryTime then .ok ((i + 1 : Nat) : Int)
      else findBackwardLoop ts enquiryTime i

/-- The second loop of `find`: `for (int i=index_; i<timeStampSize_; i++)`, entered
with `i ≥ 0`; `index` is the value the local variable holds before the iteration.
The first argument bounds the number of iterations; `size - i` of them suffice. -/
def findForwardLoop (ts : List ℚ) (size : Nat) (enquiryTime : ℚ) :
    Nat → Nat → Int → Outcome Int
  | 0, _, index => .ok index
  | fuel + 1, i, index =>
    if i < size then
      (vecAt ts (i : Int)).bind fun x =>
        if x > enquiryTime then .ok ((i : Int) - 1)
        else findForwardLoop ts size enquiryTime fuel (i + 1) (i : Int)
    else .ok index

/-- The method `find(enquiryTime)`. -/
def find (s : LinearInterpolation D) (enquiryTime : ℚ) : Outcome Int :=
  (deref s.timeStampPtr_).bind fun ts =>
    (vecAt ts s.index_).bind fun x =>
      if x > enquiryTime then
        if 0 ≤ s.index_ then findBackwardLoop ts enquiryTime s.index_.toNat
        else .ok (-1)
      else
        if 0 ≤ s.index_ then
          findForwardLoop ts s.timeStampSize_ enquiryTime
            (s.timeStampSize_ - s.index_.toNat) s.index_.toNat (-1)
        else .ok (-1)

/-- The first loop of `find` together with the indices it passes to
`timeStampPtr_->at(.)`, in the order of the calls. -/
def findBackwardLoopVisits (ts : List ℚ) (enquiryTime : ℚ) : Nat → Outcome Int × List Int
  | 0 => ((vecAt ts 0).bind fun _ => .ok 0, [0])
  | i + 1 =>
    match vecAt ts ((i + 1 : Nat) : Int) with
    | .ok x =>
      if x ≤ enquiryTime then (.ok ((i + 1 : Nat) : Int), [((i + 1 : Nat) : Int)])
      else
        ((findBackwardLoopVisits ts enquiryTime i).1,
          ((i + 1 : Nat) : Int) :: (findBackwardLoopVisits ts enquiryTime i).2)
    | .raise e => (.raise e, [((i + 1 : Nat) : Int)])
    | .undefined => (.undefined, [((i + 1 : Nat) : Int)])

/-- The second loop of `find` together with the indices it passes to
`timeStampPtr_->at(.)`, in the order of the calls. -/
def findForwardLoopVisits (ts : List ℚ) (size : Nat) (enquiryTime : ℚ) :
    Nat → Nat → Int → Outcome Int × List Int
  | 0, _, index => (.ok index, [])
  | fuel + 1, i, index =>
    if i < size then
      match vecAt ts (i : Int) with
      | .ok x =>
        if x > enquiryTime then (.ok ((i : Int) - 1), [(i : Int)])
        else
          ((findForwardLoopVisits ts size enquiryTime fuel (i + 1) (i : Int)).1,
            (i : Int) :: (findForwardLoopVisits ts size enquiryTime fuel (i + 1) (i : Int)).2)
      | .raise e => (.raise e, [(i : Int)])
      | .undefined => (.undefined, [(i : Int)])
    else (.ok index, [])

/-- The method `find(enquiryTime)` together with the indices it passes to
`timeStampPtr_->at(.)`, in the order of the calls: first `index_` for the test that
selects the loop, then the indices of the loop. -/
def findVisits (s : LinearInterpolation D) (enquiryTime : ℚ) : Outcome Int × List Int :=
  match s.timeStampPtr_ with
  | none => (.undefined, [])
  | some ts =>
    match vecAt ts s.index_ with
    | .ok x =>
      if x > enquiryTime then
        if 0 ≤ s.index_ then
          ((findBackwardLoopVisits ts enquiryTime s.index_.toNat).1,
            s.index_ :: (findBackwardLoopVisits ts enquiryTime s.index_.toNat).2)
        else (.ok (-1), [s.index_])
      else
        if 0 ≤ s.index_ then
          ((findForwardLoopVisits ts s.timeStampSize_ enquiryTime
              (s.timeStampSize_ - s.index_.toNat) s.index_.toNat (-1)).1,
            s.index_ :: (findForwardLoopVisits ts s.timeStampSize_ enquiryTime
              (s.timeStampSize_ - s.index_.toNat) s.index_.toNat (-1)).2)
        else (.ok (-1), [s.index_])
    | .raise e => (.raise e, [s.index_])
    | .undefined => (.undefined, [s.index_])

/-- The weight `alpha` of line 161, evaluated without rounding. -/
def alpha (ts : List ℚ) (index : Int) (enquiryTime : ℚ) : Outcome ℚ :=
  (vecAt ts (index + 1)).bind fun t1 =>
    (vecAt ts index).bind fun t0 =>
      .ok ((enquiryTime - t1) / (t0 - t1))

/-- Lines 161-162: the weight and the combination of the two samples at `index`,
evaluated without rounding. -/
def combine [Add D] [SMul ℚ D] (ts : List ℚ) (data : List D) (index : Int)
    (enquiryTime : ℚ) : Outcome D :=
  (alpha ts index enquiryTime).bind fun a =>
    (vecAt data index).bind fun d0 =>
      (vecAt data (index + 1)).bind fun d1 =>
        .ok (a • d0 + (1 - a) • d1)

/-- The method `interpolate(enquiryTime, enquiryData, greatestLessTimeStampIndex)`:
the outcome (the value written to `enquiryData` on return) and the object afterwards.
The default argument is `greatestLessTimeStampIndex = -1`. -/
def interpolate [Zero D] [Add D] [SMul ℚ D] (s : LinearInterpolation D)
    (enquiryTime : ℚ) (greatestLessTimeStampIndex : Int) :
    Outcome D × LinearInterpolation D :=
  if s.zeroFunction_ = true then (.ok 0, s)
  else
    match s.dataPtr_ with
    | none => (.undefined, s)
    | some data =>
      if data.length ≠ s.timeStampSize_ then
        (.raise (.runtime_error
          "LinearInterpolation.h : The size of timeStamp vector is not equal to the size of data vector."), s)
      else
        match s.timeStampPtr_ with
        | none => (.undefined, s)
        | some ts =>
          match vecFront ts with
          | .raise e => (.raise e, s)
          | .undefined => (.undefined, s)
          | .ok tFront =>
            if enquiryTime ≤ tFront then
              (vecFront data, { s with index_ := 0 })
            else
              match vecBack ts with
              | .raise e => (.raise e, s)
              | .undefined => (.undefined, s)
              | .ok tBack =>
                if enquiryTime ≥ tBack then
                  (vecBack data, { s with index_ := (s.timeStampSize_ : Int) - 1 })
                else if greatestLessTimeStampIndex = -1 then
                  match find s enquiryTime with
                  | .raise e => (.raise e, s)
                  | .undefined => (.undefined, s)
                  | .ok i =>
                    (combine ts data i enquiryTime, { s with index_ := i })
                else
                  (combine ts data greatestLessTimeStampIndex enquiryTime,
                    { s with index_ := greatestLessTimeStampIndex })

/-- An interpolator bound to the time stamps `T` and to the data `Dt`, outside zero
mode, whose cached index is `c`: the object that `construct (some T) (some Dt)`
returns (with `c = 0`) and that later queries leave behind. -/
def bound (T : List ℚ) (Dt : List D) (c : Int) : LinearInterpolation D :=
  { index_ := c, zeroFunction_ := false, timeStampSize_ := T.length,
    timeStampPtr_ := some T, dataPtr_ := some Dt }

/-- Successive unhinted queries at the times `qs` on one object: the value of
`getGreatestLessTimeStampIndex()` after each call, in order. -/
def cachedIndices [Zero D] [Add D] [SMul ℚ D] (s : LinearInterpolation D) :
    List ℚ → List Int
  | [] => []
  | t :: qs =>
    getGreatestLessTimeStampIndex (interpolate s t (-1)).2
      :: cachedIndices (interpolate s t (-1)).2 qs

end LinearInterpolation

/-! ### `double` arithmetic (IEEE 754 binary64) and `LinearInterpolation` over it -/

namespace IEEE

/-- A value of the C++ type `double` (IEEE 754 binary64): a finite number `m * 2^e`,
an infinity or a NaN.  A finite number is stored with an odd `m`, zero as `finite 0 0`;
the sign of zero is not modelled. -/
inductive Double where
  | finite (m : Int) (e : Int)
  | inf (negative : Bool)
  | nan
  deriving DecidableEq, Repr

namespace Double

/-- The number of binary digits of `n`; the first argument bounds the recursion. -/
def bitLengthAux : Nat → Nat → Nat
  | 0, _ => 0
  | fuel + 1, n => if n = 0 then 0 else bitLengthAux fuel (n / 2) + 1

/-- The number of binary digits of `n` (`0` for `n = 0`). -/
def bitLength (n : Nat) : Nat :=
  bitLengthAux n n

/-- Removes the factors `2` of `n`, counting them in the exponent. -/
def stripAux : Nat → Nat → Int → Nat × Int
  | 0, n, e => (n, e)
  | fuel + 1, n, e => if n ≠ 0 ∧ n % 2 = 0 then stripAux fuel (n / 2) (e + 1) else (n, e)

/-- The stored form of the finite number `(-1)^negative * n * 2^e`, which is assumed to
be a binary64 number. -/
def normal (negative : Bool) (n : Nat) (e : Int) : Double :=
  if n = 0 then finite 0 0
  else
    let p := stripAux n n e
    finite (if negative then -(p.1 : Int) else (p.1 : Int)) p.2

/-- The value is a binary64 number: a NaN, an infinity, zero, or `m * 2^e` with `m` odd
and of at most 53 bits, `e ≥ -1074` and a magnitude below `2^1024`. -/
def isBinary64 : Double → Bool
  | nan => true
  | inf _ => true
  | finite m e =>
    decide ((m = 0 ∧ e = 0) ∨
      (m % 2 = 1 ∧ bitLength m.natAbs ≤ 53 ∧ -1074 ≤ e ∧ (bitLength m.natAbs : Int) + e ≤ 1024))

/-- Rounding of the real number `(-1)^negative * n * 2^e` to binary64, to nearest with
ties to even: 53 significant bits, no bit below `2^-1074`, and infinity from `2^1024`. -/
def round (negative : Bool) (n : Nat) (e : Int) : Double :=
  if n = 0 then finite 0 0
  else
    let drop : Int := max ((bitLength n : Int) - 53) (-1074 - e)
    if drop ≤ 0 then
      if (bitLength n : Int) + e > 1024 then inf negative else normal negative n e
    else
      let k := drop.toNat
      let q := n / 2 ^ k
      let r := n % 2 ^ k
      let half := 2 ^ (k - 1)
      let q1 := if r > half ∨ (r = half ∧ q % 2 = 1) then q + 1 else q
      if (bitLength q1 : Int) + (e + drop) > 1024 then inf negative
      else normal negative q1 (e + drop)

/-- Rounding of the real number `m * 2^e`. -/
def roundInt (m : Int) (e : Int) : Double :=
  round (decide (m < 0)) m.natAbs e

/-- `x + y` for `double`. -/
def add : Double → Double → Double
  | nan, _ => nan
  | _, nan => nan
  | inf a, inf b => if a = b then inf a else nan
  | inf a, finite _ _ => inf a
  | finite _ _, inf b => inf b
  | finite m1 e1, finite m2 e2 =>
    let e := min e1 e2
    roundInt (m1 * 2 ^ (e1 - e).toNat + m2 * 2 ^ (e2 - e).toNat) e

/-- `-x` for `double`. -/
def neg : Double → Double
  | nan => nan
  | inf a => inf (!a)
  | finite m e => finite (-m) e

/-- `x - y` for `double`. -/
def sub (x y : Double) : Double :=
  add x (neg y)

/-- `x * y` for `double`. -/
def mul : Double → Double → Double
  | nan, _ => nan
  | _, nan => nan
  | inf a, inf b => inf (a != b)
  | inf a, finite m _ => if m = 0 then nan else inf (a != decide (m < 0))
  | finite m _, inf b => if m = 0 then nan else inf (decide (m < 0) != b)
  | finite m1 e1, finite m2 e2 => roundInt (m1 * m2) (e1 + e2)

/-- `x / y` for `double`.  The quotient of two finite numbers is computed to at least
55 bits and a sticky bit, which determine its rounding. -/
def div : Double → Double → Double
  | nan, _ => nan
  | _, nan => nan
  | inf _, inf _ => nan
  | inf a, finite m _ => inf (a != decide (m < 0))
  | finite _ _, inf _ => finite 0 0
  | finite m1 e1, finite m2 e2 =>
    if m2 = 0 then
      if m1 = 0 then nan else inf (decide (m1 < 0))
    else
      let n1 := m1.natAbs
      let n2 := m2.natAbs
      let sh := 55 + bitLength n2
      let q := (n1 * 2 ^ sh) / n2
      let sticky := if (n1 * 2 ^ sh) % n2 = 0 then 0 else 1
      round (decide (m1 < 0) != decide (m2 < 0)) (2 * q + sticky) (e1 - e2 - sh - 1)

/-- `x < y` for `double`: false when an operand is NaN. -/
def lt : Double → Double → Bool
  | nan, _ => false
  | _, nan => false
  | inf a, inf b => a && !b
  | inf a, finite _ _ => a
  | finite _ _, inf b => !b
  | finite m1 e1, finite m2 e2 =>
    let e := min e1 e2
    decide (m1 * 2 ^ (e1 - e).toNat < m2 * 2 ^ (e2 - e).toNat)

/-- `x <= y` for `double`: false when an operand is NaN. -/
def le : Double → Double → Bool
  | nan, _ => false
  | _, nan => false
  | inf a, inf b => a || !b
  | inf a, finite _ _ => a
  | finite _ _, inf b => !b
  | finite m1 e1, finite m2 e2 =>
    let e := min e1 e2
    decide (m1 * 2 ^ (e1 - e).toNat ≤ m2 * 2 ^ (e2 - e).toNat)

instance : Zero Double := ⟨finite 0 0⟩
instance : One Double := ⟨finite 1 0⟩
instance : Add Double := ⟨add⟩
instance : Sub Double := ⟨sub⟩
instance : Mul Double := ⟨mul⟩
instance : Div Double := ⟨div⟩
instance : SMul Double Double := ⟨mul⟩

end Double

/-- The private members of `LinearInterpolation`, the time stamps being `double`s as in
the source (`typedef double scalar_t`). -/
structure LinearInterpolation (D : Type) where
  index_ : Int
  zeroFunction_ : Bool
  timeStampSize_ : Nat
  timeStampPtr_ : Option (List Double)
  dataPtr_ : Option (List D)

namespace LinearInterpolation

variable {D : Type}

/-- The method `checkTimeStamp()`. -/
def checkTimeStamp (s : LinearInterpolation D) : Outcome Unit :=
  match s.timeStampPtr_ with
  | none => .raise (.runtime_error "timeStampPtr is not initialized.")
  | some _ =>
    if s.timeStampSize_ = 0 then
      .raise (.runtime_error "LinearInterpolation is not initialized.")
    else .ok ()

/-- The method `reset()`. -/
def reset (s : LinearInterpolation D) : LinearInterpolation D :=
  { s with index_ := 0, zeroFunction_ := false }

/-- The method `setTimeStamp(timeStampPtr)`: the outcome and the object afterwards. -/
def setTimeStamp (s : LinearInterpolation D) (timeStampPtr : Option (List Double)) :
    Outcome Unit × LinearInterpolation D :=
  let s1 := reset s
  match timeStampPtr with
  | none => (.undefined, s1)
  | some ts =>
    let s2 := { s1 with timeStampSize_ := ts.length, timeStampPtr_ := timeStampPtr }
    (checkTimeStamp s2, s2)

/-- The method `setData(dataPtr)`: the outcome and the object afterwards. -/
def setData (s : LinearInterpolation D) (dataPtr : Option (List D)) :
    Outcome Unit × LinearInterpolation D :=
  let s2 := { reset s with dataPtr_ := dataPtr }
  match dataPtr with
  | none => (.raise (.runtime_error "dataPtr is not initialized."), s2)
  | some _ => (.ok (), s2)

/-- The method `setZero()`. -/
def setZero (s : LinearInterpolation D) : LinearInterpolation D :=
  { reset s with zeroFunction_ := true }

/-- The first loop of `find`, with the comparison `<=` of `double`. -/
def findBackwardLoop (ts : List Double) (enquiryTime : Double) : Nat → Outcome Int
  | 0 => (vecAt ts 0).bind fun _ => .ok 0
  | i + 1 =>
    (vecAt ts ((i + 1 : Nat) : Int)).bind fun x =>
      if Double.le x enquiryTime then .ok ((i + 1 : Nat) : Int)
      else findBackwardLoop ts enquiryTime i

/-- The second loop of `find`, with the comparison `>` of `double`; the first argument
bounds the number of iterations and `size - i` of them suffice. -/
def findForwardLoop (ts : List Double) (size : Nat) (enquiryTime : Double) :
    Nat → Nat → Int → Outcome Int
  | 0, _, index => .ok index
  | fuel + 1, i, index =>
    if i < size then
      (vecAt ts (i : Int)).bind fun x =>
        if Double.lt enquiryTime x then .ok ((i : Int) - 1)
        else findForwardLoop ts size enquiryTime fuel (i + 1) (i : Int)
    else .ok index

/-- The method `find(enquiryTime)` in `double` arithmetic. -/
def find (s : LinearInterpolation D) (enquiryTime : Double) : Outcome Int :=
  (deref s.timeStampPtr_).bind fun ts =>
    (vecAt ts s.index_).bind fun x =>
      if Double.lt enquiryTime x then
        if 0 ≤ s.index_ then findBackwardLoop ts enquiryTime s.index_.toNat
        else .ok (-1)
      else
        if 0 ≤ s.index_ then
          findForwardLoop ts s.timeStampSize_ enquiryTime
            (s.timeStampSize_ - s.index_.toNat) s.index_.toNat (-1)
        else .ok (-1)

/-- The weight `alpha` of line 161 in `double` arithmetic: each operation rounds. -/
def alpha (ts : List Double) (index : Int) (enquiryTime : Double) : Outcome Double :=
  (vecAt ts (index + 1)).bind fun t1 =>
    (vecAt ts index).bind fun t0 =>
      .ok ((enquiryTime - t1) / (t0 - t1))

/-- Lines 161-162 in `double` arithmetic: the weight and the combination of the two
samples at `index`; the products, `1 - alpha` and the sum each round. -/
def combine [Add D] [SMul Double D] (ts : List Double) (data : List D) (index : Int)
    (enquiryTime : Double) : Outcome D :=
  (alpha ts index enquiryTime).bind fun a =>
    (vecAt data index).bind fun d0 =>
      (vecAt data (index + 1)).bind fun d1 =>
        .ok (a • d0 + (1 - a) • d1)

/-- The method `interpolate(enquiryTime, enquiryData, greatestLessTimeStampIndex)` in
`double` arithmetic: the outcome and the object afterwards. -/
def interpolate [Zero D] [Add D] [SMul Double D] (s : LinearInterpolation D)
    (enquiryTime : Double) (greatestLessTimeStampIndex : Int) :
    Outcome D × LinearInterpolation D :=
  if s.zeroFunction_ = true then (.ok 0, s)
  else
    match s.dataPtr_ with
    | none => (.undefined, s)
    | some data =>
      if data.length ≠ s.timeStampSize_ then
        (.raise (.runtime_error
          "LinearInterpolation.h : The size of timeStamp vector is not equal to the size of data vector."), s)
      else
        match s.timeStampPtr_ with
        | none => (.undefined, s)
        | some ts =>
          match vecFront ts with
          | .raise e => (.raise e, s)
          | .undefined => (.undefined, s)
          | .ok tFront =>
            if Double.le enquiryTime tFront then
              (vecFront data, { s with index_ := 0 })
            else
              match vecBack ts with
              | .raise e => (.raise e, s)
              | .undefined => (.undefined, s)
              | .ok tBack =>
                if Double.le tBack enquiryTime then
                  (vecBack data, { s with index_ := (s.timeStampSize_ : Int) - 1 })
                else if greatestLessTimeStampIndex = -1 then
                  match find s enquiryTime with
                  | .raise e => (.raise e, s)
                  | .undefined => (.undefined, s)
                  | .ok i =>
                    (combine ts data i enquiryTime, { s with index_ := i })
                else
                  (combine ts data greatestLessTimeStampIndex enquiryTime,
                    { s with index_ := greatestLessTimeStampIndex })

/-- An interpolator bound to the time stamps `T` and to the data `Dt`, outside zero
mode, whose cached index is `c`. -/
def bound (T : List Double) (Dt : List D) (c : Int) : LinearInterpolation D :=
  { index_ := c, zeroFunction_ := false, timeStampSize_ := T.length,
    timeStampPtr_ := some T, dataPtr_ := some Dt }

/-- One call in a client's sequence of calls on an interpolator: a bind that succeeds
(`setTimeStamp` with the non-empty vector `a :: ts`, `setData` with a set pointer),
`reset()`, `setZero()`, or an unhinted `interpolate`. -/
inductive Call (D : Type) where
  | setTimeStamp (a : Double) (ts : List Double)
  | setData (d : List D)
  | reset
  | setZero
  | interpolate (t : Double)

/-- The call passes no NaN, neither among the time stamps nor as enquiry time. -/
def Call.noNaN : Call D → Prop
  | .setTimeStamp a ts => ∀ x ∈ a :: ts, x ≠ Double.nan
  | .interpolate t => t ≠ Double.nan
  | _ => True

/-- The object after one call of a client's sequence. -/
def afterCall [Zero D] [Add D] [SMul Double D] (s : LinearInterpolation D) :
    Call D → LinearInterpolation D
  | .setTimeStamp a ts => (setTimeStamp s (some (a :: ts))).2
  | .setData d => (setData s (some d)).2
  | .reset => reset s
  | .setZero => setZero s
  | .interpolate t => (interpolate s t (-1)).2

/-- The object after a sequence of calls, made in order. -/
def afterCalls [Zero D] [Add D] [SMul Double D] (s : LinearInterpolation D) :
    List (Call D) → LinearInterpolation D
  | [] => s
  | c :: cs => afterCalls (afterCall s c) cs

/-- The index-range invariant: time stamps and data are bound, the stored size is
the length of the time stamps, and the cached index lies in `[0, n-1]`. -/
def IndexInRange (s : LinearInterpolation D) : Prop :=
  ∃ (T : List Double) (Dt : List D), s.timeStampPtr_ = some T ∧
    s.timeStampSize_ = T.length ∧ s.dataPtr_ = some Dt ∧ 0 ≤ s.index_ ∧
    s.index_ < (T.length : Int)

/-- No bound time stamp is a NaN. -/
def NoNaN (s : LinearInterpolation D) : Prop :=
  ∀ T, s.timeStampPtr_ = some T → ∀ x ∈ T, x ≠ Double.nan

end LinearInterpolation

end IEEE

/-! ### `NullLogicRules` (ocs2_core/logic/rules/NullLogicRules.h) -/

/-- The class `NullLogicRules<STATE_DIM, INPUT_DIM>`.  It declares no member of its
own: its state is the state of the base class `HybridLogicRules`, which is not among the
sources and is kept abstract as the type `Base`. -/
structure NullLogicRules (Base : Type) where
  base : Base

namespace NullLogicRules

variable {Base Controller Template : Type}

/-- The method `rewind(lowerBoundTime, upperBoundTime)`, with an empty body: the outcome
and the object afterwards. -/
def rewind (self : NullLogicRules Base) (_lowerBoundTime _upperBoundTime : ℚ) :
    Outcome Unit × NullLogicRules Base :=
  (.ok (), self)

/-- The method `adjustController(eventTimes, controllerEventTimes, controllerStock)`,
with an empty body: the outcome, the object and the `controllerStock` (passed by
non-const reference) afterwards.  `controller_array_t` is an array of the abstract
type `Controller`. -/
def adjustController (self : NullLogicRules Base) (_eventTimes _controllerEventTimes : List ℚ)
    (controllerStock : List Controller) :
    Outcome Unit × NullLogicRules Base × List Controller :=
  (.ok (), self, controllerStock)

/-- The method `update()`, with an empty body. -/
def update (self : NullLogicRules Base) : Outcome Unit × NullLogicRules Base :=
  (.ok (), self)

/-- The method `setModeSequenceTemplate(modeSequenceTemplate)`, with an empty body;
`logic_template_type` is the abstract type `Template`. -/
def setModeSequenceTemplate (self : NullLogicRules Base) (_modeSequenceTemplate : Template) :
    Outcome Unit × NullLogicRules Base :=
  (.ok (), self)

/-- The method `insertModeSequenceTemplate(startTime, finalTime)`, with an empty body. -/
def insertModeSequenceTemplate (self : NullLogicRules Base) (_startTime _finalTime : ℚ) :
    Outcome Unit × NullLogicRules Base :=
  (.ok (), self)

end NullLogicRules

/-! ### `LoopshapingCostOutputPattern` (ocs2_core/src/loopshaping/cost) -/

/-- Modelled from the spec: the struct `ScalarFunctionQuadraticApproximation`, declared
in `ocs2_core/Types.h` which is not among the sources, with the fields that
`costQuadraticApproximation` reads and writes: the value, the two gradients and the
three Hessian blocks of a scalar function of a state indexed by `nx` and an input
indexed by `nu`. -/
structure ScalarFunctionQuadraticApproximation (nx nu : Type) where
  f : ℚ
  dfdx : nx → ℚ
  dfdu : nu → ℚ
  dfdxx : Matrix nx nx ℚ
  dfdux : Matrix nu nx ℚ
  dfduu : Matrix nu nu ℚ

/-- Modelled from the spec: what `costQuadraticApproximation` uses of the class
`LoopshapingDefinition`, which is not among the sources, kept abstract: the weight
`gamma_`, the matrices `getInputFilter().getC()` and `getInputFilter().getD()`, and the
four accessors.  The augmented state is indexed by `ns ⊕ nf` (system part, filter
part), so that `x.rows() = x_system.rows() + x_filter.rows()`. -/
structure LoopshapingDefinition (ns nf nu : Type) where
  gamma_ : ℚ
  getC : Matrix nu nf ℚ
  getD : Matrix nu nu ℚ
  getSystemState : (ns ⊕ nf → ℚ) → (ns → ℚ)
  getSystemInput : (ns ⊕ nf → ℚ) → (nu → ℚ) → (nu → ℚ)
  getFilterState : (ns ⊕ nf → ℚ) → (nf → ℚ)
  getFilteredInput : (ns ⊕ nf → ℚ) → (nu → ℚ) → (nu → ℚ)

namespace LoopshapingCostOutputPattern

open Matrix

variable {ns nf nu : Type} [Fintype ns] [Fintype nf] [Fintype nu]

/-- The method `LoopshapingCostOutputPattern::costQuadraticApproximation(t, x, u)`;
`systemCost` is `systemCost_->costQuadraticApproximation`.  The assignments to
`head`/`tail`, to the four corners and to `leftCols`/`rightCols` build the blocks of
`dfdx`, `dfdxx` and `dfdux`. -/
def costQuadraticApproximation (loopshapingDefinition : LoopshapingDefinition ns nf nu)
    (systemCost : ℚ → (ns → ℚ) → (nu → ℚ) → ScalarFunctionQuadraticApproximation ns nu)
    (t : ℚ) (x : ns ⊕ nf → ℚ) (u : nu → ℚ) :
    ScalarFunctionQuadraticApproximation (ns ⊕ nf) nu :=
  let gamma := loopshapingDefinition.gamma_
  let C := loopshapingDefinition.getC
  let D := loopshapingDefinition.getD
  let x_system := loopshapingDefinition.getSystemState x
  let u_system := loopshapingDefinition.getSystemInput x u
  let u_filter := loopshapingDefinition.getFilteredInput x u
  let L_system := systemCost t x_system u_system
  let L_filter := systemCost t x_system u_filter
  let topRightCorner := gamma • L_filter.dfduxᵀ * C
  { f := gamma * L_filter.f + (1 - gamma) * L_system.f
    dfdx := Sum.elim (gamma • L_filter.dfdx + (1 - gamma) • L_system.dfdx)
      ((gamma • Cᵀ) *ᵥ L_filter.dfdu)
    dfdxx := Matrix.fromBlocks
      (gamma • L_filter.dfdxx + (1 - gamma) • L_system.dfdxx) topRightCorner
      topRightCornerᵀ (gamma • Cᵀ * L_filter.dfduu * C)
    dfdu := (gamma • Dᵀ) *ᵥ L_filter.dfdu + (1 - gamma) • L_system.dfdu
    dfduu := gamma • Dᵀ * L_filter.dfduu * D + (1 - gamma) • L_system.dfduu
    dfdux := Matrix.fromColumns
      (gamma • Dᵀ * L_filter.dfdux + (1 - gamma) • L_system.dfdux)
      (gamma • Dᵀ * L_filter.dfduu * C) }

/-- The quadratic model of an approximation at the deviation `(dx, du)`:
`f + dfdx·dx + dfdu·du + 1/2 dx'·dfdxx·dx + du'·dfdux·dx + 1/2 du'·dfduu·du`. -/
def quadraticModel {nx : Type} [Fintype nx] (L : ScalarFunctionQuadraticApproximation nx nu)
    (dx : nx → ℚ) (du : nu → ℚ) : ℚ :=
  L.f + L.dfdx ⬝ᵥ dx + L.dfdu ⬝ᵥ du + 1 / 2 * (dx ⬝ᵥ L.dfdxx *ᵥ dx)
    + du ⬝ᵥ L.dfdux *ᵥ dx + 1 / 2 * (du ⬝ᵥ L.dfduu *ᵥ du)

end LoopshapingCostOutputPattern

/-! ### The solution returned by `MultipleShootingSolver` (ocs2_sqp) -/

/-- Modelled from the spec: the `PrimalSolution` that `MultipleShootingSolver::primalSolution`
returns; the solver and this class are not among the sources, only the test that inspects
them is.  The spec (section 3) gives a solution a time, a state and an input trajectory
of the same length, with strictly increasing times, and an associated feedback controller
"represented as two time-indexed trajectories (feedforward, gain)"; the feedforward is the
open-loop input trajectory (section 4.6), so the only further datum is the gain
trajectory. -/
structure PrimalSolution (n m : Type) where
  timeTrajectory_ : List ℚ
  stateTrajectory_ : List (n → ℚ)
  inputTrajectory_ : List (m → ℚ)
  gainTrajectory_ : List (Matrix m n ℚ)

namespace PrimalSolution

open Matrix

/-- Modelled from the spec: `controllerPtr_->computeInput(t, x)` for the feedback
controller of a solution, whose class is not among the sources: the law
`u(t) = u_ff(t) + K(t) * (x - x_nominal(t))` of section 3, where the feedforward, the
gain and the nominal state are the solution's trajectories, each queried through a
`LinearInterpolation` bound to the time trajectory. -/
def computeInput {n m : Type} [Fintype n] (sol : PrimalSolution n m) (t : ℚ) (x : n → ℚ) :
    Outcome (m → ℚ) :=
  (LinearInterpolation.interpolate
      (LinearInterpolation.bound sol.timeTrajectory_ sol.inputTrajectory_ 0) t (-1)).1.bind
    fun u_ff =>
      (LinearInterpolation.interpolate
          (LinearInterpolation.bound sol.timeTrajectory_ sol.gainTrajectory_ 0) t (-1)).1.bind
        fun K =>
          (LinearInterpolation.interpolate
              (LinearInterpolation.bound sol.timeTrajectory_ sol.stateTrajectory_ 0)
              t (-1)).1.bind
            fun x_nominal => .ok (u_ff + K *ᵥ (x - x_nominal))

end PrimalSolution

end ocs2

/-! ## Specification of the helpers and of the two search loops -/

namespace ocs2

theorem vecAt_of_eq {α : Type} (v : List α) (i : Int) (k : Nat) (hik : i = (k : Int))
    (h : k < v.length) : vecAt v i = .ok v[k] := by
  subst hik
  simp [vecAt, List.getElem?_eq_getElem h]

theorem vecAt_natCast {α : Type} (v : List α) (k : Nat) (h : k < v.length) :
    vecAt v (k : Int) = .ok v[k] :=
  vecAt_of_eq v _ k rfl h

theorem vecAt_neg {α : Type} (v : List α) (i : Int) (h : i < 0) :
    vecAt v i = .raise .out_of_range := by
  simp [vecAt, h]

theorem vecAt_ge {α : Type} (v : List α) (i : Int) (h : (v.length : Int) ≤ i) :
    vecAt v i = .raise .out_of_range := by
  have h0 : ¬ i < 0 := by omega
  have h1 : v.length ≤ i.toNat := by omega
  simp [vecAt, h0, List.getElem?_eq_none h1]

theorem vecFront_eq {α : Type} (v : List α) (h : 0 < v.length) : vecFront v = .ok v[0] := by
  cases v with
  | nil => simp at h
  | cons a l => simp [vecFront]

theorem vecBack_eq {α : Type} (v : List α) (h : 0 < v.length) :
    vecBack v = .ok v[v.length - 1] := by
  have hne : v ≠ [] := List.ne_nil_of_length_pos h
  simp [vecBack, List.getLast?_eq_getLast v hne, List.getLast_eq_getElem]

namespace LinearInterpolation

theorem findForwardLoop_spec (ts : List ℚ) (t : ℚ) :
    ∀ (fuel i : Nat) (index : Int), i < ts.length → ts.length - i ≤ fuel →
      (∃ j, ∃ hj : j < ts.length, i ≤ j ∧ t < ts[j]) →
      ∃ k, ∃ hk : k < ts.length, i ≤ k ∧
        findForwardLoop ts ts.length t fuel i index = .ok ((k : Int) - 1) ∧
        t < ts[k] ∧ ∀ j (hj : j < ts.length), i ≤ j → j < k → ts[j] ≤ t := by
  intro fuel
  induction fuel with
  | zero => intro i index hi hf; omega
  | succ fuel ih =>
    intro i index hi hf hex
    by_cases hgt : t < ts[i]
    · refine ⟨i, hi, le_refl _, ?_, hgt, ?_⟩
      · simp [findForwardLoop, hi, vecAt_natCast ts i hi, Outcome.bind, hgt]
      · intro j hj h1 h2; omega
    · obtain ⟨j, hj, hij, htj⟩ := hex
      have hne : j ≠ i := by
        rintro rfl
        exact hgt htj
      have hi1 : i + 1 < ts.length := by omega
      obtain ⟨k, hk, hik, hres, htk, hall⟩ :=
        ih (i + 1) (i : Int) hi1 (by omega) ⟨j, hj, by omega, htj⟩
      refine ⟨k, hk, by omega, ?_, htk, ?_⟩
      · simp [findForwardLoop, hi, vecAt_natCast ts i hi, Outcome.bind, hgt, hres]
      · intro j2 hj2 h1 h2
        by_cases h3 : j2 = i
        · subst h3; exact not_lt.mp hgt
        · exact hall j2 hj2 (by omega) h2

theorem findBackwardLoop_spec (ts : List ℚ) (t : ℚ) :
    ∀ (i : Nat), i < ts.length →
      (∃ j, ∃ hj : j < ts.length, j ≤ i ∧ ts[j] ≤ t) →
      ∃ k, ∃ hk : k < ts.length, k ≤ i ∧
        findBackwardLoop ts t i = .ok (k : Int) ∧
        ts[k] ≤ t ∧ ∀ j (hj : j < ts.length), k < j → j ≤ i → t < ts[j] := by
  intro i
  induction i with
  | zero =>
    intro hi hex
    obtain ⟨j, hj, hj0, htj⟩ := hex
    have : j = 0 := by omega
    subst this
    refine ⟨0, hi, le_refl _, ?_, htj, ?_⟩
    · have := vecAt_natCast ts 0 hi
      simp at this
      simp [findBackwardLoop, this, Outcome.bind]
    · intro j hj h1 h2; omega
  | succ i ih =>
    intro hi hex
    by_cases hle : ts[i + 1] ≤ t
    · refine ⟨i + 1, hi, le_refl _, ?_, hle, ?_⟩
      · simp [findBackwardLoop, vecAt_of_eq ts ((i : Int) + 1) (i + 1) (by simp) hi,
          Outcome.bind, hle]
      · intro j hj h1 h2; omega
    · obtain ⟨j, hj, hji, htj⟩ := hex
      have hne : j ≠ i + 1 := by
        rintro rfl
        exact hle htj
      obtain ⟨k, hk, hki, hres, htk, hall⟩ := ih (by omega) ⟨j, hj, by omega, htj⟩
      refine ⟨k, hk, by omega, ?_, htk, ?_⟩
      · simp [findBackwardLoop, vecAt_of_eq ts ((i : Int) + 1) (i + 1) (by simp) hi,
          Outcome.bind, hle, hres]
      · intro j2 hj2 h1 h2
        by_cases h3 : j2 = i + 1
        · subst h3; exact not_le.mp hle
        · exact hall j2 hj2 h1 (by omega)


theorem findForwardLoop_fuel (ts : List ℚ) (size : Nat) (t : ℚ) :
    ∀ (fuel i : Nat) (index : Int), size - i ≤ fuel →
      findForwardLoop ts size t fuel i index
        = findForwardLoop ts size t (size - i) i index := by
  intro fuel
  induction fuel with
  | zero =>
    intro i index h
    have : size - i = 0 := by omega
    rw [this]
  | succ fuel ih =>
    intro i index h
    by_cases hi : i < size
    · obtain ⟨m, hm⟩ : ∃ m, size - i = m + 1 := ⟨size - i - 1, by omega⟩
      rw [hm]
      simp only [findForwardLoop, hi, if_true]
      have e1 := ih (i + 1) (i : Int) (by omega)
      have e2 : size - (i + 1) = m := by omega
      rw [e1, e2]
    · have : size - i = 0 := by omega
      rw [this]
      simp [findForwardLoop, hi]

variable {D : Type}

theorem sorted_getElem_lt {T : List ℚ} (hT : List.Sorted (· < ·) T) {a b : Nat}
    (ha : a < T.length) (hb : b < T.length) (hab : a < b) : T[a] < T[b] := by
  have := List.pairwise_iff_getElem.mp hT a b ha hb hab
  exact this

theorem sorted_getElem_le {T : List ℚ} (hT : List.Sorted (· < ·) T) {a b : Nat}
    (ha : a < T.length) (hb : b < T.length) (hab : a ≤ b) : T[a] ≤ T[b] := by
  rcases Nat.lt_or_eq_of_le hab with h | h
  · exact le_of_lt (sorted_getElem_lt hT ha hb h)
  · subst h; exact le_refl _

theorem bracket_unique {T : List ℚ} (hT : List.Sorted (· < ·) T) {t : ℚ} {i k : Nat}
    (hi : i + 1 < T.length) (hk : k + 1 < T.length)
    (hi1 : T[i] ≤ t) (hi2 : t < T[i + 1]) (hk1 : T[k] ≤ t) (hk2 : t < T[k + 1]) :
    i = k := by
  rcases Nat.lt_trichotomy i k with h | h | h
  · have := sorted_getElem_le hT hi (by omega : k < T.length) (by omega : i + 1 ≤ k)
    linarith
  · exact h
  · have := sorted_getElem_le hT hk (by omega : i < T.length) (by omega : k + 1 ≤ i)
    linarith

theorem find_bound_spec (T : List ℚ) (Dt : List D) (t : ℚ) (c : Nat)
    (hc : c < T.length) (h0 : T[0] ≤ t) (hlast : t < T[T.length - 1]) :
    ∃ k, ∃ hk : k + 1 < T.length,
      find (bound T Dt (c : Int)) t = .ok (k : Int) ∧ T[k] ≤ t ∧ t < T[k + 1] ∧
      (T[c] ≤ t → c ≤ k) ∧ (t < T[c] → k < c) := by
  by_cases hgt : t < T[c]
  · obtain ⟨k, hk, hkc, hres, htk, hall⟩ :=
      findBackwardLoop_spec T t c hc ⟨0, by omega, by omega, h0⟩
    have hne : k ≠ c := by
      rintro rfl
      linarith
    have hk1 : k + 1 < T.length := by omega
    refine ⟨k, hk1, ?_, htk, hall (k + 1) hk1 (by omega) (by omega), ?_, ?_⟩
    · simp [find, bound, deref, Outcome.bind, vecAt_natCast T c hc, hgt, hres]
    · intro h; linarith
    · intro _; omega
  · obtain ⟨k, hk, hkc, hres, htk, hall⟩ :=
      findForwardLoop_spec T t (T.length - c) c (-1) hc (le_refl _)
        ⟨T.length - 1, by omega, by omega, hlast⟩
    have hne : k ≠ c := by
      rintro rfl
      exact hgt htk
    obtain ⟨m, rfl⟩ : ∃ m, k = m + 1 := ⟨k - 1, by omega⟩
    refine ⟨m, hk, ?_, hall m (by omega) (by omega) (by omega), htk, ?_, ?_⟩
    · simp [find, bound, deref, Outcome.bind, vecAt_natCast T c hc, hgt, hres]
    · intro _; omega
    · intro h; exact absurd h hgt


/-- With at least `size - i` iterations allowed, the forward loop obeys the recursion of
the C++ loop itself: the iteration bound is never what ends it. -/
theorem findForwardLoop_unfold (ts : List ℚ) (size : Nat) (t : ℚ) (fuel i : Nat)
    (index : Int) (h : size - i ≤ fuel) :
    findForwardLoop ts size t fuel i index
      = if i < size then
          (vecAt ts (i : Int)).bind fun x =>
            if x > t then .ok ((i : Int) - 1)
            else findForwardLoop ts size t fuel (i + 1) (i : Int)
        else .ok index := by
  by_cases hi : i < size
  · obtain ⟨m, rfl⟩ : ∃ m, fuel = m + 1 := ⟨fuel - 1, by omega⟩
    have e1 := findForwardLoop_fuel ts size t m (i + 1) (i : Int) (by omega)
    have e2 := findForwardLoop_fuel ts size t (m + 1) (i + 1) (i : Int) (by omega)
    rw [e2, ← e1]
    conv_lhs => unfold findForwardLoop
  · cases fuel <;> simp [findForwardLoop, hi]

/-- The bound objects are the ones the public interface produces: the two-pointer
constructor, and the default constructor followed by the two setters. -/
theorem bound_reachable {D : Type} (a : ℚ) (T : List ℚ) (Dt : List D) :
    construct (some (a :: T)) (some Dt) = .ok (bound (a :: T) Dt 0) ∧
      (setData (setTimeStamp (defaultConstruct : LinearInterpolation D) (some (a :: T))).2
        (some Dt)) = (.ok (), bound (a :: T) Dt 0) := by
  simp [construct, setTimeStamp, setData, checkTimeStamp, deref, Outcome.bind, bound, reset,
    defaultConstruct]


section Characterisation

variable {D : Type}

theorem combine_eq [Add D] [SMul ℚ D] (T : List ℚ) (Dt : List D) (hD : Dt.length = T.length)
    (t : ℚ) (k : Nat) (hk : k + 1 < T.length) :
    combine T Dt (k : Int) t
      = .ok (((t - T[k + 1]) / (T[k] - T[k + 1])) • Dt[k]
          + (1 - (t - T[k + 1]) / (T[k] - T[k + 1])) • Dt[k + 1]) := by
  have e1 : vecAt T ((k : Int) + 1) = .ok T[k + 1] := vecAt_of_eq T _ (k + 1) (by simp) hk
  have e2 : vecAt T (k : Int) = .ok T[k] := vecAt_natCast T k (by omega)
  have e3 : vecAt Dt ((k : Int) + 1) = .ok Dt[k + 1] :=
    vecAt_of_eq Dt _ (k + 1) (by simp) (by omega)
  have e4 : vecAt Dt (k : Int) = .ok Dt[k] := vecAt_natCast Dt k (by omega)
  simp [combine, alpha, e1, e2, e3, e4, Outcome.bind]

theorem interpolate_front [Zero D] [Add D] [SMul ℚ D] (T : List ℚ) (Dt : List D)
    (hD : Dt.length = T.length) (hn : 0 < T.length) (c h : Int) (t : ℚ) (ht : t ≤ T[0]) :
    interpolate (bound T Dt c) t h = (.ok Dt[0], bound T Dt 0) := by
  simp [interpolate, bound, hD, vecFront_eq T hn, vecFront_eq Dt (by omega), ht]

theorem interpolate_back [Zero D] [Add D] [SMul ℚ D] (T : List ℚ) (Dt : List D)
    (hD : Dt.length = T.length) (hn : 0 < T.length) (c h : Int) (t : ℚ) (ht0 : T[0] < t)
    (ht : T[T.length - 1] ≤ t) :
    interpolate (bound T Dt c) t h
      = (.ok Dt[T.length - 1], bound T Dt ((T.length : Int) - 1)) := by
  have e : vecBack Dt = .ok Dt[T.length - 1] := by
    rw [vecBack_eq Dt (by omega)]
    simp [hD]
  simp [interpolate, bound, hD, vecFront_eq T hn, not_le.mpr ht0, vecBack_eq T hn, ht, e]

theorem interpolate_hint [Zero D] [Add D] [SMul ℚ D] (T : List ℚ) (Dt : List D)
    (hD : Dt.length = T.length) (hn : 0 < T.length) (c h : Int) (t : ℚ) (ht0 : T[0] < t)
    (ht : t < T[T.length - 1]) (hh : h ≠ -1) :
    interpolate (bound T Dt c) t h = (combine T Dt h t, bound T Dt h) := by
  simp [interpolate, bound, hD, vecFront_eq T hn, not_le.mpr ht0, vecBack_eq T hn,
    not_le.mpr ht, hh]

theorem interpolate_search [Zero D] [Add D] [SMul ℚ D] (T : List ℚ) (Dt : List D)
    (hD : Dt.length = T.length) (hn : 0 < T.length) (c : Int) (t : ℚ) (ht0 : T[0] < t)
    (ht : t < T[T.length - 1]) (k : Int) (hk : find (bound T Dt c) t = .ok k) :
    interpolate (bound T Dt c) t (-1) = (combine T Dt k t, bound T Dt k) := by
  have hk2 := hk
  simp only [bound] at hk2
  simp [interpolate, bound, hD, vecFront_eq T hn, not_le.mpr ht0, vecBack_eq T hn,
    not_le.mpr ht, hk2]

/-- An unhinted query strictly inside the time range, started from a cached index
inside the vector, returns the combination at the bracketing index `k` and caches `k`. -/
theorem interpolate_interior [Zero D] [Add D] [SMul ℚ D] (T : List ℚ) (Dt : List D)
    (hD : Dt.length = T.length) (c : Nat) (hc : c < T.length) (t : ℚ) (ht0 : T[0] < t)
    (ht : t < T[T.length - 1]) :
    ∃ k, ∃ hk : k + 1 < T.length, T[k] ≤ t ∧ t < T[k + 1] ∧
      (T[c] ≤ t → c ≤ k) ∧ (t < T[c] → k < c) ∧
      interpolate (bound T Dt (c : Int)) t (-1)
        = (.ok (((t - T[k + 1]) / (T[k] - T[k + 1])) • Dt[k]
            + (1 - (t - T[k + 1]) / (T[k] - T[k + 1])) • Dt[k + 1]),
           bound T Dt (k : Int)) := by
  obtain ⟨k, hk, hf, h1, h2, h3, h4⟩ := find_bound_spec T Dt t c hc (le_of_lt ht0) ht
  refine ⟨k, hk, h1, h2, h3, h4, ?_⟩
  rw [interpolate_search T Dt hD (by omega) c t ht0 ht k hf, combine_eq T Dt hD t k hk]

end Characterisation


section Queries

variable {D : Type}

theorem find_bound_out_of_range (T : List ℚ) (Dt : List D) (c : Int) (t : ℚ)
    (hc : c < 0 ∨ (T.length : Int) ≤ c) :
    find (bound T Dt c) t = .raise .out_of_range := by
  have h : vecAt T c = .raise .out_of_range := by
    rcases hc with h | h
    · exact vecAt_neg T c h
    · exact vecAt_ge T c h
  simp [find, bound, deref, Outcome.bind, h]

theorem interpolate_search_raise [Zero D] [Add D] [SMul ℚ D] (T : List ℚ) (Dt : List D)
    (hD : Dt.length = T.length) (hn : 0 < T.length) (c : Int) (t : ℚ) (ht0 : T[0] < t)
    (ht : t < T[T.length - 1]) (e : Exception) (hk : find (bound T Dt c) t = .raise e) :
    interpolate (bound T Dt c) t (-1) = (.raise e, bound T Dt c) := by
  have hk2 := hk
  simp only [bound] at hk2
  simp [interpolate, bound, hD, vecFront_eq T hn, not_le.mpr ht0, vecBack_eq T hn,
    not_le.mpr ht, hk2]

/-- The unhinted query on a bound interpolator, for every cached index: either it
returns and caches an index `k` inside the vector (`0` in front of the range, `n-1`
behind it, a bracketing index inside it, reached from a cached index inside the vector),
or the time is strictly inside the range, the cached index is outside the vector and
the call throws `out_of_range` without changing the object. -/
theorem unhinted_query [Zero D] [Add D] [SMul ℚ D] (T : List ℚ) (Dt : List D)
    (hD : Dt.length = T.length) (hn : 0 < T.length) (c : Int) (t : ℚ) :
    (∃ k : Nat, k < T.length ∧
        (∃ v, interpolate (bound T Dt c) t (-1) = (.ok v, bound T Dt (k : Int))) ∧
        (t ≤ T[0] → k = 0) ∧
        (T[0] < t → T[T.length - 1] ≤ t → k = T.length - 1) ∧
        (T[0] < t → t < T[T.length - 1] →
          ∃ hk : k + 1 < T.length, T[k] ≤ t ∧ t < T[k + 1] ∧
            ∃ c0 : Nat, ∃ hc0 : c0 < T.length, c = (c0 : Int) ∧ (T[c0] ≤ t → c0 ≤ k))) ∨
      (T[0] < t ∧ t < T[T.length - 1] ∧ (c < 0 ∨ (T.length : Int) ≤ c) ∧
        interpolate (bound T Dt c) t (-1) = (.raise .out_of_range, bound T Dt c)) := by
  by_cases ht0 : t ≤ T[0]
  · left
    refine ⟨0, hn, ⟨Dt[0], ?_⟩, fun _ => rfl, ?_, ?_⟩
    · simpa using interpolate_front T Dt hD hn c (-1) t ht0
    · intro h; exact absurd ht0 (not_le.mpr h)
    · intro h; exact absurd ht0 (not_le.mpr h)
  · have ht0' : T[0] < t := not_le.mp ht0
    by_cases ht : T[T.length - 1] ≤ t
    · left
      refine ⟨T.length - 1, by omega, ⟨Dt[T.length - 1], ?_⟩, ?_, fun _ _ => rfl, ?_⟩
      · have h := interpolate_back T Dt hD hn c (-1) t ht0' ht
        have e : ((T.length - 1 : Nat) : Int) = (T.length : Int) - 1 := by omega
        rw [h]
        exact congrArg (fun z => (Outcome.ok Dt[T.length - 1], bound T Dt z)) e.symm
      · intro h; exact absurd h ht0
      · intro _ h; exact absurd ht (not_le.mpr h)
    · have ht' : t < T[T.length - 1] := not_le.mp ht
      by_cases hc : 0 ≤ c ∧ c < (T.length : Int)
      · left
        obtain ⟨c0, rfl⟩ : ∃ c0 : Nat, c = (c0 : Int) := ⟨c.toNat, by omega⟩
        have hc0 : c0 < T.length := by omega
        obtain ⟨k, hk, h1, h2, h3, -, hres⟩ :=
          interpolate_interior T Dt hD c0 hc0 t ht0' ht'
        refine ⟨k, by omega, ⟨_, hres⟩, ?_, ?_, ?_⟩
        · intro h; exact absurd h ht0
        · intro _ h; exact absurd h ht
        · intro _ _
          exact ⟨hk, h1, h2, c0, hc0, rfl, h3⟩
      · right
        have hc' : c < 0 ∨ (T.length : Int) ≤ c := by omega
        exact ⟨ht0', ht', hc', interpolate_search_raise T Dt hD hn c t ht0' ht' _
          (find_bound_out_of_range T Dt c t hc')⟩

/-- From a cached index inside the vector the unhinted query returns. -/
theorem unhinted_query_in_range [Zero D] [Add D] [SMul ℚ D] (T : List ℚ) (Dt : List D)
    (hD : Dt.length = T.length) (hn : 0 < T.length) (c : Int) (t : ℚ)
    (h0 : 0 ≤ c) (h1 : c < (T.length : Int)) :
    (interpolate (bound T Dt c) t (-1)).1.isOk = true := by
  rcases unhinted_query T Dt hD hn c t with ⟨k, -, ⟨v, hv⟩, -⟩ | ⟨-, -, hc, -⟩
  · rw [hv]; rfl
  · omega

end Queries


section Monotone

variable {D : Type}

/-- A returning unhinted query leaves a cached index `k` that is `0` or whose stamp is
not after the query time. -/
theorem first_query [Zero D] [Add D] [SMul ℚ D] (T : List ℚ) (Dt : List D)
    (hD : Dt.length = T.length) (hn : 0 < T.length) (c : Int) (t : ℚ)
    (hok : (interpolate (bound T Dt c) t (-1)).1.isOk = true) :
    ∃ k : Nat, ∃ hk : k < T.length, ∃ v,
      interpolate (bound T Dt c) t (-1) = (.ok v, bound T Dt (k : Int)) ∧
      (k = 0 ∨ T[k] ≤ t) := by
  rcases unhinted_query T Dt hD hn c t with ⟨k, hk, ⟨v, hv⟩, h1, h2, h3⟩ | ⟨-, -, -, hr⟩
  · refine ⟨k, hk, v, hv, ?_⟩
    by_cases ht0 : t ≤ T[0]
    · exact Or.inl (h1 ht0)
    · right
      have ht0' : T[0] < t := not_le.mp ht0
      by_cases ht : T[T.length - 1] ≤ t
      · have hk' := h2 ht0' ht
        subst hk'
        exact ht
      · obtain ⟨_, h4, _⟩ := h3 ht0' (not_le.mp ht)
        exact h4
  · rw [hr] at hok
    simp [Outcome.isOk] at hok

/-- One more unhinted query at a later time: it returns, the cached index does not
decrease, and the search, when one is made, starts at a stamp that is not after the
query time, so that `find` takes its forward loop. -/
theorem next_query [Zero D] [Add D] [SMul ℚ D] (T : List ℚ) (Dt : List D)
    (hT : List.Sorted (· < ·) T) (hD : Dt.length = T.length)
    (k1 : Nat) (hk1 : k1 < T.length) (t1 t2 : ℚ) (h12 : t1 ≤ t2)
    (hQ : k1 = 0 ∨ T[k1] ≤ t1) :
    ∃ k2 : Nat, ∃ hk2 : k2 < T.length, ∃ v,
      interpolate (bound T Dt (k1 : Int)) t2 (-1) = (.ok v, bound T Dt (k2 : Int)) ∧
      k1 ≤ k2 ∧ (k2 = 0 ∨ T[k2] ≤ t2) ∧
      (T[0] < t2 → t2 < T[T.length - 1] → T[k1] ≤ t2) := by
  have hn : 0 < T.length := by omega
  have hstart : T[0] < t2 → T[k1] ≤ t2 := by
    intro h
    rcases hQ with h0 | h0
    · subst h0; exact le_of_lt h
    · exact le_trans h0 h12
  have hok : (interpolate (bound T Dt (k1 : Int)) t2 (-1)).1.isOk = true :=
    unhinted_query_in_range T Dt hD hn (k1 : Int) t2 (by omega) (by omega)
  obtain ⟨k2, hk2, v, hv, hQ2⟩ := first_query T Dt hD hn (k1 : Int) t2 hok
  refine ⟨k2, hk2, v, hv, ?_, hQ2, fun h _ => hstart h⟩
  rcases unhinted_query T Dt hD hn (k1 : Int) t2 with
    ⟨k, hk, ⟨w, hw⟩, h1, h2, h3⟩ | ⟨-, -, -, hr⟩
  · have hkk : k = k2 := by
      rw [hv] at hw
      have := congrArg (fun p => p.2.index_) hw
      simp [bound] at this
      omega
    subst hkk
    by_cases ht0 : t2 ≤ T[0]
    · rcases hQ with h0 | h0
      · omega
      · by_contra hcon
        have hpos : 0 < k1 := by omega
        have := sorted_getElem_lt hT hn hk1 hpos
        linarith
    · have ht0' : T[0] < t2 := not_le.mp ht0
      by_cases ht : T[T.length - 1] ≤ t2
      · have := h2 ht0' ht
        omega
      · obtain ⟨_, _, _, c0, hc0, hcc, h4⟩ := h3 ht0' (not_le.mp ht)
        have hc01 : c0 = k1 := by omega
        subst hc01
        exact h4 (hstart ht0')
  · rw [hr] at hok
    simp [Outcome.isOk] at hok

/-- Along a non-decreasing sequence of query times the cached indices are
non-decreasing. -/
theorem cachedIndices_chain [Zero D] [Add D] [SMul ℚ D] (T : List ℚ) (Dt : List D)
    (hT : List.Sorted (· < ·) T) (hD : Dt.length = T.length) :
    ∀ (qs : List ℚ) (k1 : Nat) (hk1 : k1 < T.length) (t1 : ℚ), (k1 = 0 ∨ T[k1] ≤ t1) →
      List.Chain (· ≤ ·) t1 qs →
      List.Chain (· ≤ ·) (k1 : Int) (cachedIndices (bound T Dt (k1 : Int)) qs) := by
  intro qs
  induction qs with
  | nil => intro k1 hk1 t1 _ _; exact List.Chain.nil
  | cons t2 qs ih =>
    intro k1 hk1 t1 hQ hch
    have h12 : t1 ≤ t2 := (List.chain_cons.mp hch).1
    obtain ⟨k2, hk2, v, hv, hle, hQ2, -⟩ := next_query T Dt hT hD k1 hk1 t1 t2 h12 hQ
    simp only [cachedIndices, hv, getGreatestLessTimeStampIndex]
    refine List.Chain.cons ?_ (ih k2 hk2 t2 hQ2 (List.chain_cons.mp hch).2)
    simp only [bound]
    omega

end Monotone


section Visits

variable {D : Type}

theorem findBackwardLoopVisits_fst (ts : List ℚ) (t : ℚ) (i : Nat) :
    (findBackwardLoopVisits ts t i).1 = findBackwardLoop ts t i := by
  induction i with
  | zero => rfl
  | succ i ih =>
    simp only [findBackwardLoopVisits, findBackwardLoop]
    cases vecAt ts ((i + 1 : Nat) : Int) with
    | ok x =>
      by_cases hx : x ≤ t
      · simp [Outcome.bind, hx]
      · simp [Outcome.bind, hx, ih]
    | raise e => simp [Outcome.bind]
    | undefined => simp [Outcome.bind]

theorem findForwardLoopVisits_fst (ts : List ℚ) (size : Nat) (t : ℚ) (fuel i : Nat)
    (index : Int) :
    (findForwardLoopVisits ts size t fuel i index).1 = findForwardLoop ts size t fuel i index := by
  induction fuel generalizing i index with
  | zero => rfl
  | succ fuel ih =>
    simp only [findForwardLoopVisits, findForwardLoop]
    by_cases hi : i < size
    · simp only [hi, if_true]
      cases vecAt ts (i : Int) with
      | ok x =>
        by_cases hx : x > t
        · simp [Outcome.bind, hx]
        · simp [Outcome.bind, hx, ih]
      | raise e => simp [Outcome.bind]
      | undefined => simp [Outcome.bind]
    · simp [hi]

/-- The instrumented `find` returns what `find` returns, for every object and time. -/
theorem findVisits_fst (s : LinearInterpolation D) (t : ℚ) :
    (findVisits s t).1 = find s t := by
  simp only [findVisits, find, deref]
  cases s.timeStampPtr_ with
  | none => simp [Outcome.bind]
  | some ts =>
    simp only [Outcome.bind]
    cases vecAt ts s.index_ with
    | ok x =>
      by_cases hx : x > t <;> by_cases h0 : 0 ≤ s.index_ <;>
        simp [hx, h0, findBackwardLoopVisits_fst, findForwardLoopVisits_fst]
    | raise e => simp
    | undefined => simp

/-- The indices read by the forward loop: every index from the start `i` to the first
one whose stamp is after the query time. -/
theorem findForwardLoopVisits_spec (ts : List ℚ) (t : ℚ) :
    ∀ (fuel i : Nat) (index : Int), i < ts.length → ts.length - i ≤ fuel →
      (∃ j, ∃ hj : j < ts.length, i ≤ j ∧ t < ts[j]) →
      ∃ k, ∃ hk : k < ts.length, i ≤ k ∧
        findForwardLoopVisits ts ts.length t fuel i index
          = (.ok ((k : Int) - 1), (List.range' i (k + 1 - i)).map fun j => (j : Int)) ∧
        t < ts[k] ∧ ∀ j (hj : j < ts.length), i ≤ j → j < k → ts[j] ≤ t := by
  intro fuel
  induction fuel with
  | zero => intro i index hi hf; omega
  | succ fuel ih =>
    intro i index hi hf hex
    by_cases hgt : t < ts[i]
    · refine ⟨i, hi, le_refl _, ?_, hgt, ?_⟩
      · simp [findForwardLoopVisits, hi, vecAt_natCast ts i hi, hgt]
      · intro j hj h1 h2; omega
    · obtain ⟨j, hj, hij, htj⟩ := hex
      have hne : j ≠ i := by
        rintro rfl
        exact hgt htj
      have hi1 : i + 1 < ts.length := by omega
      obtain ⟨k, hk, hik, hres, htk, hall⟩ :=
        ih (i + 1) (i : Int) hi1 (by omega) ⟨j, hj, by omega, htj⟩
      refine ⟨k, hk, by omega, ?_, htk, ?_⟩
      · have e : k + 1 - i = (k + 1 - (i + 1)) + 1 := by omega
        simp [findForwardLoopVisits, hi, vecAt_natCast ts i hi, hgt, hres, e,
          List.range'_succ]
      · intro j2 hj2 h1 h2
        by_cases h3 : j2 = i
        · subst h3; exact not_lt.mp hgt
        · exact hall j2 hj2 (by omega) h2

/-- A search that starts at a stamp not after the query time, strictly inside the range:
`find` reads the cached index `c` for its test and then the indices `c, c+1, ..., k+1`
of the forward loop, and returns the bracketing index `k ≥ c`. -/
theorem findVisits_forward (T : List ℚ) (Dt : List D) (t : ℚ) (c : Nat)
    (hc : c < T.length) (hct : T[c] ≤ t) (hlast : t < T[T.length - 1]) :
    ∃ k, ∃ hk : k + 1 < T.length, c ≤ k ∧ T[k] ≤ t ∧ t < T[k + 1] ∧
      findVisits (bound T Dt (c : Int)) t
        = (.ok (k : Int),
            (c : Int) :: (List.range' c (k + 2 - c)).map fun j => (j : Int)) := by
  obtain ⟨k, hk, hkc, hres, htk, hall⟩ :=
    findForwardLoopVisits_spec T t (T.length - c) c (-1) hc (le_refl _)
      ⟨T.length - 1, by omega, by omega, hlast⟩
  have hne : k ≠ c := by
    rintro rfl
    linarith
  obtain ⟨m, rfl⟩ : ∃ m, k = m + 1 := ⟨k - 1, by omega⟩
  refine ⟨m, hk, by omega, hall m (by omega) (by omega) (by omega), htk, ?_⟩
  have e : m + 1 + 1 - c = m + 2 - c := by omega
  simp [findVisits, bound, vecAt_natCast T c hc, not_lt.mpr hct, hres, e]

end Visits

/-! ## The claims C1 to C10 -/

/-- C1 (knot exactness): for strictly increasing time stamps `T`, data `Dt` of the same
length, every index `i` and every cached index `c` inside the vector, the unhinted
query at `t = T[i]` outside zero mode returns exactly `Dt[i]`; for an interior `i` the
search finds `i` and the weight `alpha` is exactly `1`. -/
theorem interpolate_at_knot {D : Type} [AddCommGroup D] [Module ℚ D] (T : List ℚ)
    (Dt : List D) (hT : List.Sorted (· < ·) T) (hD : Dt.length = T.length) (i c : Nat)
    (hi : i < T.length) (hc : c < T.length) :
    (interpolate (bound T Dt (c : Int)) T[i] (-1)).1 = .ok Dt[i] ∧
      (0 < i → i + 1 < T.length →
        find (bound T Dt (c : Int)) T[i] = .ok (i : Int) ∧
        alpha T (i : Int) T[i] = .ok 1) := by
  have hinterior : 0 < i → ∀ hi1 : i + 1 < T.length,
      find (bound T Dt (c : Int)) T[i] = .ok (i : Int) ∧ alpha T (i : Int) T[i] = .ok 1 ∧
      (interpolate (bound T Dt (c : Int)) T[i] (-1)).1 = .ok Dt[i] := by
    intro h0 hi1
    have hlt0 : T[0] < T[i] := sorted_getElem_lt hT (by omega) hi h0
    have hlt1 : T[i] < T[i + 1] := sorted_getElem_lt hT hi hi1 (by omega)
    have hlast : T[i] < T[T.length - 1] :=
      lt_of_lt_of_le hlt1 (sorted_getElem_le hT hi1 (by omega) (by omega))
    obtain ⟨k, hk, hf, h1, h2, -, -⟩ :=
      find_bound_spec T Dt T[i] c hc (le_of_lt hlt0) hlast
    have hki : k = i := bracket_unique hT hk hi1 h1 h2 (le_refl _) hlt1
    subst hki
    have hne : T[k] - T[k + 1] ≠ 0 := by
      intro h
      linarith
    have e1 : vecAt T ((k : Int) + 1) = .ok T[k + 1] := vecAt_of_eq T _ (k + 1) (by simp) hk
    have e2 : vecAt T (k : Int) = .ok T[k] := vecAt_natCast T k (by omega)
    refine ⟨hf, ?_, ?_⟩
    · simp [alpha, e1, e2, Outcome.bind, div_self hne]
    · rw [interpolate_search T Dt hD (by omega) (c : Int) T[k] hlt0 hlast (k : Int) hf,
        combine_eq T Dt hD T[k] k hk]
      simp [div_self hne]
  refine ⟨?_, fun h0 hi1 => ⟨(hinterior h0 hi1).1, (hinterior h0 hi1).2.1⟩⟩
  rcases Nat.eq_zero_or_pos i with h0 | h0
  · subst h0
    rw [interpolate_front T Dt hD hi (c : Int) (-1) T[0] (le_refl _)]
  · by_cases hi1 : i + 1 < T.length
    · exact (hinterior h0 hi1).2.2
    · have hlast : i = T.length - 1 := by omega
      subst hlast
      have hlt0 : T[0] < T[T.length - 1] := sorted_getElem_lt hT (by omega) hi h0
      rw [interpolate_back T Dt hD (by omega) (c : Int) (-1) _ hlt0 (le_refl _)]

/-- Witness for C1: three knots, the interior knot queried from the last cached index. -/
theorem interpolate_at_knot_witness :
    (interpolate (bound [0, 1, 2] [(0 : ℚ), 10, 20] 2) 1 (-1)).1 = .ok 10 ∧
      find (bound [0, 1, 2] [(0 : ℚ), 10, 20] 2) 1 = .ok 1 ∧
      alpha [0, 1, 2] 1 1 = .ok 1 :=
  have h := interpolate_at_knot [0, 1, 2] [(0 : ℚ), 10, 20] (by decide) rfl 1 2
    (by decide) (by decide)
  ⟨h.1, h.2 (by decide) (by decide)⟩

/-- C2 (interior value): for strictly increasing `T` with at least two stamps, matching
data and `T[0] < t < T[n-1]`, there is an index `i` with `T[i] ≤ t < T[i+1]`, it is the
greatest index whose stamp is `≤ t` and the only bracketing index, and from every cached
index inside the vector the unhinted query returns
`alpha • Dt[i] + (1 - alpha) • Dt[i+1]` with `alpha = (t - T[i+1]) / (T[i] - T[i+1])`:
the value does not depend on the cached index. -/
theorem interpolate_interior_value {D : Type} [AddCommGroup D] [Module ℚ D] (T : List ℚ)
    (Dt : List D) (hT : List.Sorted (· < ·) T) (hD : Dt.length = T.length)
    (hn : 2 ≤ T.length) (t : ℚ) (ht0 : T[0] < t) (ht : t < T[T.length - 1]) :
    ∃ i, ∃ hi : i + 1 < T.length, T[i] ≤ t ∧ t < T[i + 1] ∧
      (∀ j (hj : j < T.length), T[j] ≤ t → j ≤ i) ∧
      (∀ k (hk : k + 1 < T.length), T[k] ≤ t → t < T[k + 1] → k = i) ∧
      ∀ c : Nat, c < T.length →
        (interpolate (bound T Dt (c : Int)) t (-1)).1
          = .ok (((t - T[i + 1]) / (T[i] - T[i + 1])) • Dt[i]
              + (1 - (t - T[i + 1]) / (T[i] - T[i + 1])) • Dt[i + 1]) := by
  obtain ⟨i, hi, h1, h2, -, -, -⟩ :=
    interpolate_interior T Dt hD 0 (by omega) t ht0 ht
  refine ⟨i, hi, h1, h2, ?_, ?_, ?_⟩
  · intro j hj hjt
    by_contra hcon
    have := sorted_getElem_le hT hi hj (by omega : i + 1 ≤ j)
    linarith
  · intro k hk hk1 hk2
    exact bracket_unique hT hk hi hk1 hk2 h1 h2
  · intro c hc
    obtain ⟨k, hk, hk1, hk2, -, -, hres⟩ := interpolate_interior T Dt hD c hc t ht0 ht
    have hki : k = i := bracket_unique hT hk hi hk1 hk2 h1 h2
    subst hki
    rw [hres]

/-- Witness for C2: three knots, the query time `3/2`, started from the last index. -/
theorem interpolate_interior_value_witness :
    (interpolate (bound [0, 1, 2] [(0 : ℚ), 10, 20] 2) (3 / 2) (-1)).1 = .ok 15 := by
  obtain ⟨i, hi, -, -, -, huniq, h⟩ :=
    interpolate_interior_value [0, 1, 2] [(0 : ℚ), 10, 20] (by decide) rfl (by decide)
      (3 / 2) (by norm_num) (by norm_num)
  have h1 : 1 = i := huniq 1 (by decide) (by norm_num) (by norm_num)
  subst h1
  have h2 := h 2 (by decide)
  refine h2.trans ?_
  norm_num


/-- C4 (zero function): after `setZero()`, whatever is bound (even nothing, or data
whose length differs from the number of time stamps), every `interpolate` call, for
every enquiry time and every hint, returns the zero value, throws nothing and leaves
the object as it was, so that the same holds for every later call. -/
theorem interpolate_setZero {D : Type} [Zero D] [Add D] [SMul ℚ D]
    (s : LinearInterpolation D) (t : ℚ) (h : Int) :
    interpolate (setZero s) t h = (.ok 0, setZero s) := by
  simp [interpolate, setZero]

/-- C5 (failing input): binding an unset (`NULL`) time-stamp pointer, through the
constructor or through `setTimeStamp`, dereferences the pointer before
`checkTimeStamp()` can test it: the call has undefined behaviour and the
`runtime_error` is never thrown. -/
theorem bind_null_timeStamp_undefined {D : Type} (s : LinearInterpolation D)
    (dataPtr : Option (List D)) :
    construct none dataPtr = .undefined ∧ (setTimeStamp s none).1 = .undefined := by
  simp [construct, setTimeStamp, deref, Outcome.bind]

/-- The remaining cases of C5 hold: with a set time-stamp pointer the constructor throws
exactly when the time stamps are empty or the data pointer is unset, and otherwise
returns the bound object whatever the data length; `setTimeStamp` throws exactly for an
empty vector and `setData` exactly for an unset pointer. -/
theorem bind_set_timeStamp {D : Type} (s : LinearInterpolation D) (ts : List ℚ)
    (a : ℚ) (d : List D) :
    (construct (some ([] : List ℚ)) (some d)
        = .raise (.runtime_error "LinearInterpolation is not initialized.")) ∧
      (construct (some ([] : List ℚ)) (none : Option (List D))
        = .raise (.runtime_error "LinearInterpolation is not initialized.")) ∧
      (construct (some (a :: ts)) (none : Option (List D))
        = .raise (.runtime_error "dataPtr is not initialized.")) ∧
      (construct (some (a :: ts)) (some d) = .ok (bound (a :: ts) d 0)) ∧
      ((setTimeStamp s (some [])).1
        = .raise (.runtime_error "LinearInterpolation is not initialized.")) ∧
      ((setTimeStamp s (some (a :: ts))).1 = .ok ()) ∧
      ((setData s none).1 = .raise (.runtime_error "dataPtr is not initialized.")) ∧
      ((setData s (some d)).1 = .ok ()) := by
  simp [construct, setTimeStamp, setData, checkTimeStamp, deref, Outcome.bind, bound, reset]

/-- C6 (length mismatch at query time): for an interpolator bound to time stamps `T`
and to data whose length differs from that of `T`, outside zero mode, every
`interpolate` call (every time, every hint, every cached index) throws the
`runtime_error` and leaves every field, the cached index included, unchanged. -/
theorem interpolate_length_mismatch {D : Type} [Zero D] [Add D] [SMul ℚ D] (T : List ℚ)
    (Dt : List D) (hne : Dt.length ≠ T.length) (c h : Int) (t : ℚ) :
    interpolate (bound T Dt c) t h
      = (.raise (.runtime_error
          "LinearInterpolation.h : The size of timeStamp vector is not equal to the size of data vector."),
         bound T Dt c) := by
  simp [interpolate, bound, hne]

/-- Witness for C6: three time stamps bound to two data points. -/
theorem interpolate_length_mismatch_witness :
    interpolate (bound [0, 1, 2] [(10 : ℚ), 20] 1) (1 / 2) (-1)
      = (.raise (.runtime_error
          "LinearInterpolation.h : The size of timeStamp vector is not equal to the size of data vector."),
         bound [0, 1, 2] [(10 : ℚ), 20] 1) :=
  interpolate_length_mismatch [0, 1, 2] [(10 : ℚ), 20] (by decide) 1 (-1) (1 / 2)

/-- C7 (failing input): on a default-constructed interpolator `interpolate` dereferences
the unset data pointer, which is undefined behaviour and no thrown error; the same
happens when only the time stamps were bound, and, when only an empty data vector was
bound, at the unset time-stamp pointer.  Only with non-empty data and no time stamps
does the call throw (the size test). -/
theorem interpolate_unbound_undefined {D : Type} [Zero D] [Add D] [SMul ℚ D]
    (ts : List ℚ) (a : D) (d : List D) (t : ℚ) (h : Int) :
    (interpolate (defaultConstruct : LinearInterpolation D) t h).1 = .undefined ∧
      (interpolate (setTimeStamp (defaultConstruct : LinearInterpolation D) (some ts)).2
        t h).1 = .undefined ∧
      (interpolate (setData (defaultConstruct : LinearInterpolation D) (some [])).2
        t h).1 = .undefined ∧
      (interpolate (setData (defaultConstruct : LinearInterpolation D) (some (a :: d))).2
        t h).1 = .raise (.runtime_error
          "LinearInterpolation.h : The size of timeStamp vector is not equal to the size of data vector.") := by
  simp [interpolate, defaultConstruct, setTimeStamp, setData, reset]


/-- C8 (monotone queries never move the cache backward): for strictly increasing `T`
with matching data and `t1 ≤ t2`, the unhinted query at `t1` returns from every cached
index inside the vector, and whenever it returns, the unhinted query at `t2` that follows
returns too and caches an index that is not smaller.  When the second call searches
(`T[0] < t2 < T[n-1]`), `find` starts at the index `k1` cached by the first call, whose
stamp is `≤ t2`, and only walks forward: the indices it reads are `k1` for the test and
then `k1, k1+1, ..., k2+1`, none before `k1`, and it returns the bracketing index
`k2 ≥ k1`, which becomes the cached index.  Hence along a non-decreasing sequence of
query times the cached indices are non-decreasing. -/
theorem monotone_queries {D : Type} [Zero D] [Add D] [SMul ℚ D] (T : List ℚ)
    (Dt : List D) (hT : List.Sorted (· < ·) T) (hD : Dt.length = T.length)
    (hn : 0 < T.length) (c : Int) (t1 t2 : ℚ) (h12 : t1 ≤ t2) :
    (0 ≤ c → c < (T.length : Int) →
        (interpolate (bound T Dt c) t1 (-1)).1.isOk = true) ∧
      ((interpolate (bound T Dt c) t1 (-1)).1.isOk = true →
        (interpolate (interpolate (bound T Dt c) t1 (-1)).2 t2 (-1)).1.isOk = true ∧
        getGreatestLessTimeStampIndex (interpolate (bound T Dt c) t1 (-1)).2
          ≤ getGreatestLessTimeStampIndex
              (interpolate (interpolate (bound T Dt c) t1 (-1)).2 t2 (-1)).2 ∧
        (T[0] < t2 → t2 < T[T.length - 1] →
          ∃ x, vecAt T (getGreatestLessTimeStampIndex (interpolate (bound T Dt c) t1 (-1)).2)
              = .ok x ∧ x ≤ t2) ∧
        (T[0] < t2 → t2 < T[T.length - 1] →
          ∃ k1 k2 : Nat, ∃ hk : k2 + 1 < T.length,
            getGreatestLessTimeStampIndex (interpolate (bound T Dt c) t1 (-1)).2
              = (k1 : Int) ∧
            k1 ≤ k2 ∧ T[k2] ≤ t2 ∧ t2 < T[k2 + 1] ∧
            find (interpolate (bound T Dt c) t1 (-1)).2 t2 = .ok (k2 : Int) ∧
            findVisits (interpolate (bound T Dt c) t1 (-1)).2 t2
              = (.ok (k2 : Int),
                  (k1 : Int) :: (List.range' k1 (k2 + 2 - k1)).map fun j => (j : Int)) ∧
            getGreatestLessTimeStampIndex
                (interpolate (interpolate (bound T Dt c) t1 (-1)).2 t2 (-1)).2
              = (k2 : Int))) ∧
      (∀ (s : LinearInterpolation D) (t : ℚ), (findVisits s t).1 = find s t) ∧
      (∀ qs : List ℚ, List.Sorted (· ≤ ·) qs → 0 ≤ c → c < (T.length : Int) →
        List.Sorted (· ≤ ·) (cachedIndices (bound T Dt c) qs)) := by
  refine ⟨unhinted_query_in_range T Dt hD hn c t1, ?_, findVisits_fst, ?_⟩
  · intro hok
    obtain ⟨k1, hk1, v, hv, hQ⟩ := first_query T Dt hD hn c t1 hok
    obtain ⟨k2, hk2, w, hw, hle, -, hstart⟩ := next_query T Dt hT hD k1 hk1 t1 t2 h12 hQ
    rw [hv]
    dsimp only
    refine ⟨?_, ?_, ?_, ?_⟩
    · rw [hw]
      rfl
    · rw [hw]
      simp only [getGreatestLessTimeStampIndex, bound]
      omega
    · intro h0 h1
      exact ⟨T[k1], vecAt_natCast T k1 hk1, hstart h0 h1⟩
    · intro h0 h1
      obtain ⟨k, hk, hkc, h3, h4, hvis⟩ :=
        findVisits_forward T Dt t2 k1 hk1 (hstart h0 h1) h1
      have hf : find (bound T Dt (k1 : Int)) t2 = .ok (k : Int) := by
        rw [← findVisits_fst, hvis]
      refine ⟨k1, k, hk, rfl, hkc, h3, h4, hf, hvis, ?_⟩
      rw [interpolate_search T Dt hD hn (k1 : Int) t2 h0 h1 (k : Int) hf]
      rfl
  · intro qs hqs h0 h1
    cases qs with
    | nil => exact List.sorted_nil
    | cons t qs =>
      have hok := unhinted_query_in_range T Dt hD hn c t h0 h1
      obtain ⟨k1, hk1, v, hv, hQ⟩ := first_query T Dt hD hn c t hok
      have hch : List.Chain (· ≤ ·) t qs := List.Pairwise.chain' hqs
      have := cachedIndices_chain T Dt hT hD qs k1 hk1 t hQ hch
      simp only [cachedIndices, hv, getGreatestLessTimeStampIndex]
      exact List.chain'_iff_pairwise.mp this

/-- Witness for C8: three knots, the first query started from the last index; the search
of the second query reads the indices `0, 0, 1, 2` and finds `1`. -/
theorem monotone_queries_witness :
    (interpolate (interpolate (bound [0, 1, 2] [(0 : ℚ), 10, 20] 2) (1 / 2) (-1)).2
        (3 / 2) (-1)).1.isOk = true ∧
      getGreatestLessTimeStampIndex
          (interpolate (bound [0, 1, 2] [(0 : ℚ), 10, 20] 2) (1 / 2) (-1)).2
        ≤ getGreatestLessTimeStampIndex
            (interpolate (interpolate (bound [0, 1, 2] [(0 : ℚ), 10, 20] 2)
              (1 / 2) (-1)).2 (3 / 2) (-1)).2 ∧
      findVisits (interpolate (bound [0, 1, 2] [(0 : ℚ), 10, 20] 2) (1 / 2) (-1)).2 (3 / 2)
        = (.ok 1, [0, 0, 1, 2]) := by
  have h := monotone_queries [0, 1, 2] [(0 : ℚ), 10, 20] (by decide) rfl (by decide) 2
    (1 / 2) (3 / 2) (by norm_num)
  have h2 := h.2.1 (h.1 (by decide) (by decide))
  refine ⟨h2.1, h2.2.1, ?_⟩
  obtain ⟨k1, k2, hk, hg, -, h3, h4, -, hvis, -⟩ := h2.2.2.2 (by norm_num) (by norm_num)
  have e : (interpolate (bound [0, 1, 2] [(0 : ℚ), 10, 20] 2) (1 / 2) (-1)).2
      = bound [0, 1, 2] [(0 : ℚ), 10, 20] 0 := by
    simp [interpolate, bound, vecFront, vecBack, find, deref, vecAt, Outcome.bind,
      findBackwardLoop]
    norm_num
  rw [e] at hg
  have hk1 : k1 = 0 := by
    simp only [getGreatestLessTimeStampIndex, bound] at hg
    omega
  have hk2 : k2 = 1 := by
    have hlt : k2 < 2 := by
      simp only [List.length_cons, List.length_nil] at hk
      omega
    interval_cases k2
    · norm_num at h4
    · rfl
  subst hk1
  subst hk2
  exact hvis

/-- C9 (cached-index side effect): for strictly increasing `T` with matching data,
the unhinted query outside zero mode returns from every cached index inside the vector,
and after every such call that returns `getGreatestLessTimeStampIndex()` is `0` if
`t ≤ T[0]`, `n-1` if `t ≥ T[n-1]`, and otherwise an index `i` with `T[i] ≤ t < T[i+1]`;
a call in zero mode leaves the object, the cached index included, as it was. -/
theorem cached_index_after_query {D : Type} [Zero D] [Add D] [SMul ℚ D] (T : List ℚ)
    (Dt : List D) (hT : List.Sorted (· < ·) T) (hD : Dt.length = T.length)
    (hn : 0 < T.length) (c : Int) (t : ℚ) :
    (0 ≤ c → c < (T.length : Int) →
        (interpolate (bound T Dt c) t (-1)).1.isOk = true) ∧
      ((interpolate (bound T Dt c) t (-1)).1.isOk = true →
        (t ≤ T[0] →
          getGreatestLessTimeStampIndex (interpolate (bound T Dt c) t (-1)).2 = 0) ∧
        (T[T.length - 1] ≤ t →
          getGreatestLessTimeStampIndex (interpolate (bound T Dt c) t (-1)).2
            = (T.length : Int) - 1) ∧
        (T[0] < t → t < T[T.length - 1] →
          ∃ i : Nat, ∃ hi : i + 1 < T.length, T[i] ≤ t ∧ t < T[i + 1] ∧
            getGreatestLessTimeStampIndex (interpolate (bound T Dt c) t (-1)).2
              = (i : Int))) ∧
      (∀ (s : LinearInterpolation D) (h : Int), s.zeroFunction_ = true →
        (interpolate s t h).1 = .ok 0 ∧ (interpolate s t h).2 = s) := by
  refine ⟨unhinted_query_in_range T Dt hD hn c t, ?_, ?_⟩
  · intro hok
    rcases unhinted_query T Dt hD hn c t with ⟨k, hk, ⟨v, hv⟩, h1, h2, h3⟩ | ⟨-, -, -, hr⟩
    · rw [hv]
      simp only [getGreatestLessTimeStampIndex, bound]
      refine ⟨?_, ?_, ?_⟩
      · intro ht0
        have := h1 ht0
        omega
      · intro ht
        by_cases ht0 : T[0] < t
        · have := h2 ht0 ht
          omega
        · have hk0 := h1 (not_lt.mp ht0)
          have hlen : T.length - 1 = 0 := by
            by_contra hne
            have := sorted_getElem_lt hT hn (by omega : T.length - 1 < T.length) (by omega)
            have := not_lt.mp ht0
            linarith
          omega
      · intro ht0 ht
        obtain ⟨hk1, h4, h5, -⟩ := h3 ht0 ht
        exact ⟨k, hk1, h4, h5, rfl⟩
    · rw [hr] at hok
      simp [Outcome.isOk] at hok
  · intro s h hz
    simp [interpolate, hz]

/-- Witness for C9: three knots, the query time `3/2`, started from index `0`. -/
theorem cached_index_after_query_witness :
    (interpolate (bound [0, 1, 2] [(0 : ℚ), 10, 20] 0) (3 / 2) (-1)).1.isOk = true ∧
      ∃ i : Nat, ∃ hi : i + 1 < ([0, 1, 2] : List ℚ).length,
        ([0, 1, 2] : List ℚ)[i] ≤ 3 / 2 ∧ (3 / 2 : ℚ) < ([0, 1, 2] : List ℚ)[i + 1] ∧
        getGreatestLessTimeStampIndex
          (interpolate (bound [0, 1, 2] [(0 : ℚ), 10, 20] 0) (3 / 2) (-1)).2 = (i : Int) :=
  have h := cached_index_after_query [0, 1, 2] [(0 : ℚ), 10, 20] (by decide) rfl
    (by decide) 0 (3 / 2)
  ⟨h.1 (by decide) (by decide),
    (h.2.1 (h.1 (by decide) (by decide))).2.2 (by norm_num) (by norm_num)⟩

/-- Counterexample to C10 as stated: on `T = [0, 1, 2]` the unhinted query at `1/2`
leaves `k = 0`.  A second interpolator bound to the same stamps whose cached index is
`7`, left there by the failed call `interpolate(1/2, 7)`, answers the hinted query
`interpolate(1/2, k)` with `5`, but its own unhinted query at `1/2` throws
`out_of_range`: the two do not return the same value. -/
theorem hint_reuse_counterexample :
    getGreatestLessTimeStampIndex
        (interpolate (bound [0, 1, 2] [(0 : ℚ), 1, 2] 0) (1 / 2) (-1)).2 = 0 ∧
      interpolate (bound [0, 1, 2] [(0 : ℚ), 10, 20] 0) (1 / 2) 7
        = (.raise .out_of_range, bound [0, 1, 2] [(0 : ℚ), 10, 20] 7) ∧
      (interpolate (bound [0, 1, 2] [(0 : ℚ), 10, 20] 7) (1 / 2) 0).1 = .ok 5 ∧
      (interpolate (bound [0, 1, 2] [(0 : ℚ), 10, 20] 7) (1 / 2) (-1)).1
        = .raise .out_of_range := by
  refine ⟨?_, ?_, ?_, ?_⟩
  · simp [interpolate, bound, vecFront, vecBack, find, deref, vecAt, Outcome.bind,
      findForwardLoop, getGreatestLessTimeStampIndex]
    norm_num
  · simp [interpolate, bound, vecFront, vecBack, vecAt, Outcome.bind, combine, alpha]
    norm_num
  · simp [interpolate, bound, vecFront, vecBack, vecAt, Outcome.bind, combine, alpha]
    norm_num
  · simp [interpolate, bound, vecFront, vecBack, find, deref, vecAt, Outcome.bind]
    norm_num

/-- C10 (reusing a found index as a hint, amended): for strictly increasing `T`, let `k`
be the cached index after an unhinted query at `t` that returned.  On every interpolator
bound to the same `T` and to data of the same length, whatever its cached index `c1`,
the hinted query `interpolate(t, k)` returns, and its value is the one the unhinted
query at `t` returns from every cached index `c2` inside the vector, also when `t` is
at or outside the first or last stamp. -/
theorem hint_reuse {D E : Type} [Zero D] [Add D] [SMul ℚ D] [Zero E] [Add E] [SMul ℚ E]
    (T : List ℚ) (Dt : List D) (Dt1 : List E) (hT : List.Sorted (· < ·) T)
    (hD : Dt.length = T.length) (hD1 : Dt1.length = T.length) (hn : 0 < T.length)
    (c : Int) (t : ℚ) (hok : (interpolate (bound T Dt c) t (-1)).1.isOk = true)
    (c1 : Int) :
    (interpolate (bound T Dt1 c1) t
        (getGreatestLessTimeStampIndex (interpolate (bound T Dt c) t (-1)).2)).1.isOk
        = true ∧
      ∀ c2 : Int, 0 ≤ c2 → c2 < (T.length : Int) →
        (interpolate (bound T Dt1 c1) t
          (getGreatestLessTimeStampIndex (interpolate (bound T Dt c) t (-1)).2)).1
          = (interpolate (bound T Dt1 c2) t (-1)).1 := by
  rcases unhinted_query T Dt hD hn c t with ⟨k, hk, ⟨v, hv⟩, h1, h2, h3⟩ | ⟨-, -, -, hr⟩
  · rw [hv]
    simp only [getGreatestLessTimeStampIndex, bound]
    by_cases ht0 : t ≤ T[0]
    · have e := interpolate_front T Dt1 hD1 hn c1 (k : Int) t ht0
      simp only [bound] at e
      rw [e]
      refine ⟨rfl, fun c2 _ _ => ?_⟩
      have e2 := interpolate_front T Dt1 hD1 hn c2 (-1) t ht0
      simp only [bound] at e2
      rw [e2]
    · have ht0' : T[0] < t := not_le.mp ht0
      by_cases ht : T[T.length - 1] ≤ t
      · have e := interpolate_back T Dt1 hD1 hn c1 (k : Int) t ht0' ht
        simp only [bound] at e
        rw [e]
        refine ⟨rfl, fun c2 _ _ => ?_⟩
        have e2 := interpolate_back T Dt1 hD1 hn c2 (-1) t ht0' ht
        simp only [bound] at e2
        rw [e2]
      · have ht' : t < T[T.length - 1] := not_le.mp ht
        obtain ⟨hk1, h4, h5, -⟩ := h3 ht0' ht'
        have e := interpolate_hint T Dt1 hD1 hn c1 (k : Int) t ht0' ht' (by omega)
        rw [combine_eq T Dt1 hD1 t k hk1] at e
        simp only [bound] at e
        rw [e]
        refine ⟨rfl, fun c2 hc20 hc2 => ?_⟩
        obtain ⟨c0, rfl⟩ : ∃ c0 : Nat, c2 = (c0 : Int) := ⟨c2.toNat, by omega⟩
        obtain ⟨k', hk', h6, h7, -, -, hres⟩ :=
          interpolate_interior T Dt1 hD1 c0 (by omega) t ht0' ht'
        have hkk : k' = k := bracket_unique hT hk' hk1 h6 h7 h4 h5
        subst hkk
        simp only [bound] at hres
        rw [hres]
  · rw [hr] at hok
    simp [Outcome.isOk] at hok

/-- Witness for C10: the index found at `1/2` reused on an interpolator whose cached
index is `7`. -/
theorem hint_reuse_witness :
    (interpolate (bound [0, 1, 2] [(0 : ℚ), 10, 20] 7) (1 / 2)
        (getGreatestLessTimeStampIndex
          (interpolate (bound [0, 1, 2] [(0 : ℚ), 1, 2] 0) (1 / 2) (-1)).2)).1.isOk = true ∧
      (interpolate (bound [0, 1, 2] [(0 : ℚ), 10, 20] 7) (1 / 2)
        (getGreatestLessTimeStampIndex
          (interpolate (bound [0, 1, 2] [(0 : ℚ), 1, 2] 0) (1 / 2) (-1)).2)).1
        = (interpolate (bound [0, 1, 2] [(0 : ℚ), 10, 20] 2) (1 / 2) (-1)).1 :=
  have hok : (interpolate (bound [0, 1, 2] [(0 : ℚ), 1, 2] 0) (1 / 2) (-1)).1.isOk = true := by
    simp [interpolate, bound, vecFront, vecBack, find, deref, vecAt, Outcome.bind,
      findForwardLoop, combine, alpha, Outcome.isOk]
    norm_num
  have h := hint_reuse [0, 1, 2] [(0 : ℚ), 1, 2] [(0 : ℚ), 10, 20] (by decide) rfl rfl
    (by decide) 0 (1 / 2) hok 7
  ⟨h.1, h.2 2 (by decide) (by decide)⟩

end LinearInterpolation
end ocs2

/-! ## Further helpers: knots, matrix algebra -/

namespace ocs2
namespace LinearInterpolation

/-- The value of an unhinted query at a knot, from a cached index inside the vector. -/
theorem knot_value {D : Type} [AddCommGroup D] [Module ℚ D] (T : List ℚ) (Dt : List D)
    (hT : List.Sorted (· < ·) T) (hD : Dt.length = T.length) (i c : Nat)
    (hi : i < T.length) (hc : c < T.length) :
    (interpolate (bound T Dt (c : Int)) T[i] (-1)).1 = .ok Dt[i] := by
  rcases Nat.eq_zero_or_pos i with h0 | h0
  · subst h0
    rw [interpolate_front T Dt hD hi (c : Int) (-1) T[0] (le_refl _)]
  · have hlt0 : T[0] < T[i] := sorted_getElem_lt hT (by omega) hi h0
    by_cases hi1 : i + 1 < T.length
    · have hlt1 : T[i] < T[i + 1] := sorted_getElem_lt hT hi hi1 (by omega)
      have hlast : T[i] < T[T.length - 1] :=
        lt_of_lt_of_le hlt1 (sorted_getElem_le hT hi1 (by omega) (by omega))
      obtain ⟨k, hk, h1, h2, -, -, hres⟩ := interpolate_interior T Dt hD c hc T[i] hlt0 hlast
      have hki : k = i := bracket_unique hT hk hi1 h1 h2 (le_refl _) hlt1
      subst hki
      have hne : T[k] - T[k + 1] ≠ 0 := by
        intro h
        linarith
      rw [hres]
      simp [div_self hne]
    · have hlast : i = T.length - 1 := by omega
      subst hlast
      rw [interpolate_back T Dt hD (by omega) (c : Int) (-1) _ hlt0 (le_refl _)]

end LinearInterpolation
namespace LoopshapingCostOutputPattern

open Matrix

section Algebra

/-- A transposed matrix moves to the other side of the dot product. -/
theorem transpose_mulVec_dotProduct {m n : Type} [Fintype m] [Fintype n]
    (A : Matrix m n ℚ) (v : m → ℚ) (w : n → ℚ) :
    (Aᵀ *ᵥ v) ⬝ᵥ w = v ⬝ᵥ A *ᵥ w := by
  rw [Matrix.mulVec_transpose, ← Matrix.dotProduct_mulVec]

/-- A transposed matrix moves to the other side of the dot product. -/
theorem dotProduct_transpose_mulVec {m n : Type} [Fintype m] [Fintype n]
    (A : Matrix m n ℚ) (v : m → ℚ) (w : n → ℚ) :
    w ⬝ᵥ Aᵀ *ᵥ v = A *ᵥ w ⬝ᵥ v := by
  rw [Matrix.dotProduct_comm, transpose_mulVec_dotProduct, Matrix.dotProduct_comm]

/-- A symmetric matrix gives a symmetric bilinear form. -/
theorem isSymm_dotProduct_mulVec {n : Type} [Fintype n] (H : Matrix n n ℚ) (hH : H.IsSymm)
    (y z : n → ℚ) : y ⬝ᵥ H *ᵥ z = z ⬝ᵥ H *ᵥ y := by
  rw [Matrix.dotProduct_mulVec, ← Matrix.mulVec_transpose, hH.eq, Matrix.dotProduct_comm]

end Algebra

end LoopshapingCostOutputPattern
end ocs2

/-! ## `double` arithmetic: order, rounding, and the search loops over it -/

namespace ocs2
namespace IEEE

namespace Double

theorem lt_of_le_eq_false {x y : Double} (hx : x ≠ nan) (hy : y ≠ nan)
    (h : Double.le x y = false) : Double.lt y x = true := by
  cases x with
  | nan => exact absurd rfl hx
  | inf a =>
    cases y with
    | nan => exact absurd rfl hy
    | inf b => cases a <;> cases b <;> simp_all [Double.le, Double.lt]
    | finite m e => cases a <;> simp_all [Double.le, Double.lt]
  | finite m1 e1 =>
    cases y with
    | nan => exact absurd rfl hy
    | inf b => cases b <;> simp_all [Double.le, Double.lt]
    | finite m2 e2 =>
      simp only [Double.le, decide_eq_false_iff_not, not_le] at h
      simp only [Double.lt, decide_eq_true_eq, min_comm e2 e1]
      exact h

theorem le_of_lt_eq_false {x y : Double} (hx : x ≠ nan) (hy : y ≠ nan)
    (h : Double.lt x y = false) : Double.le y x = true := by
  cases x with
  | nan => exact absurd rfl hx
  | inf a =>
    cases y with
    | nan => exact absurd rfl hy
    | inf b => cases a <;> cases b <;> simp_all [Double.le, Double.lt]
    | finite m e => cases a <;> simp_all [Double.le, Double.lt]
  | finite m1 e1 =>
    cases y with
    | nan => exact absurd rfl hy
    | inf b => cases b <;> simp_all [Double.le, Double.lt]
    | finite m2 e2 =>
      simp only [Double.lt, decide_eq_false_iff_not, not_lt] at h
      simp only [Double.le, decide_eq_true_eq, min_comm e2 e1]
      exact h

theorem le_eq_false_of_lt {x y : Double} (h : Double.lt x y = true) :
    Double.le y x = false := by
  cases x with
  | nan => simp [Double.lt] at h
  | inf a =>
    cases y with
    | nan => simp [Double.lt] at h
    | inf b => cases a <;> cases b <;> simp_all [Double.le, Double.lt]
    | finite m e => cases a <;> simp_all [Double.le, Double.lt]
  | finite m1 e1 =>
    cases y with
    | nan => simp [Double.lt] at h
    | inf b => cases b <;> simp_all [Double.le, Double.lt]
    | finite m2 e2 =>
      simp only [Double.lt, decide_eq_true_eq] at h
      simp only [Double.le, decide_eq_false_iff_not, not_le, min_comm e2 e1]
      exact h

theorem le_of_lt_eq_true {x y : Double} (h : Double.lt x y = true) : Double.le x y = true := by
  cases x with
  | nan => simp [Double.lt] at h
  | inf a =>
    cases y with
    | nan => simp [Double.lt] at h
    | inf b => cases a <;> cases b <;> simp_all [Double.le, Double.lt]
    | finite m e => cases a <;> simp_all [Double.le, Double.lt]
  | finite m1 e1 =>
    cases y with
    | nan => simp [Double.lt] at h
    | inf b => cases b <;> simp_all [Double.le, Double.lt]
    | finite m2 e2 =>
      simp only [Double.lt, decide_eq_true_eq] at h
      simp only [Double.le, decide_eq_true_eq]
      exact h.le

theorem scaled_lt_iff (m1 e1 m2 e2 : Int) :
    m1 * 2 ^ (e1 - min e1 e2).toNat < m2 * 2 ^ (e2 - min e1 e2).toNat
      ↔ (m1 : ℚ) * (2 : ℚ) ^ e1 < (m2 : ℚ) * (2 : ℚ) ^ e2 := by
  obtain ⟨a, ha⟩ : ∃ a : Nat, (e1 - min e1 e2).toNat = a := ⟨_, rfl⟩
  obtain ⟨b, hb⟩ : ∃ b : Nat, (e2 - min e1 e2).toNat = b := ⟨_, rfl⟩
  have h1 : e1 = min e1 e2 + (a : Int) := by omega
  have h2 : e2 = min e1 e2 + (b : Int) := by omega
  rw [ha, hb]
  generalize min e1 e2 = e at h1 h2
  subst h1 h2
  have hpos : (0 : ℚ) < (2 : ℚ) ^ e := by positivity
  rw [zpow_add₀ (by norm_num), zpow_add₀ (by norm_num), zpow_natCast, zpow_natCast]
  have c1 : ((m1 * 2 ^ a : Int) : ℚ) = (m1 : ℚ) * (2 : ℚ) ^ a := by push_cast; ring
  have c2 : ((m2 * 2 ^ b : Int) : ℚ) = (m2 : ℚ) * (2 : ℚ) ^ b := by push_cast; ring
  rw [← Int.cast_lt (R := ℚ), c1, c2]
  constructor
  · intro h
    nlinarith
  · intro h
    by_contra hc
    push_neg at hc
    nlinarith

theorem lt_finite_iff (m1 e1 m2 e2 : Int) :
    Double.lt (finite m1 e1) (finite m2 e2) = true
      ↔ (m1 : ℚ) * (2 : ℚ) ^ e1 < (m2 : ℚ) * (2 : ℚ) ^ e2 := by
  simp only [Double.lt, decide_eq_true_eq]
  exact scaled_lt_iff m1 e1 m2 e2

theorem le_finite_iff (m1 e1 m2 e2 : Int) :
    Double.le (finite m1 e1) (finite m2 e2) = true
      ↔ (m1 : ℚ) * (2 : ℚ) ^ e1 ≤ (m2 : ℚ) * (2 : ℚ) ^ e2 := by
  simp only [Double.le, decide_eq_true_eq]
  rw [← not_lt, ← not_lt, not_iff_not]
  have h := scaled_lt_iff m2 e2 m1 e1
  rw [min_comm e2 e1] at h
  exact h

/-- Transitivity of `<=` followed by `<` on `double`. -/
theorem le_lt_trans {x y z : Double} (h1 : Double.le x y = true)
    (h2 : Double.lt y z = true) : Double.lt x z = true := by
  cases x with
  | nan => simp [Double.le] at h1
  | inf a =>
    cases y with
    | nan => simp [Double.le] at h1
    | inf b =>
      cases z with
      | nan => simp [Double.lt] at h2
      | inf c => cases a <;> cases b <;> cases c <;> simp_all [Double.le, Double.lt]
      | finite m e => cases a <;> cases b <;> simp_all [Double.le, Double.lt]
    | finite m e =>
      cases z with
      | nan => simp [Double.lt] at h2
      | inf c => cases a <;> cases c <;> simp_all [Double.le, Double.lt]
      | finite m e => cases a <;> simp_all [Double.le, Double.lt]
  | finite m1 e1 =>
    cases y with
    | nan => simp [Double.le] at h1
    | inf b =>
      cases z with
      | nan => simp [Double.lt] at h2
      | inf c => cases b <;> cases c <;> simp_all [Double.le, Double.lt]
      | finite m e => cases b <;> simp_all [Double.le, Double.lt]
    | finite m2 e2 =>
      cases z with
      | nan => simp [Double.lt] at h2
      | inf c => cases c <;> simp_all [Double.le, Double.lt]
      | finite m3 e3 =>
        rw [le_finite_iff] at h1
        rw [lt_finite_iff] at h2 ⊢
        exact lt_of_le_of_lt h1 h2

theorem stripAux_fst_ne_zero : ∀ (fuel n : Nat) (e : Int), n ≠ 0 → (stripAux fuel n e).1 ≠ 0 := by
  intro fuel
  induction fuel with
  | zero => intro n e h; simpa [stripAux] using h
  | succ fuel ih =>
    intro n e h
    by_cases h2 : n ≠ 0 ∧ n % 2 = 0
    · simp only [stripAux, h2, ne_eq, not_false_eq_true, and_self, if_true]
      apply ih
      omega
    · simp only [stripAux, h2, if_false]
      exact h

theorem normal_ne_zero (negative : Bool) (n : Nat) (e : Int) (hn : n ≠ 0) :
    normal negative n e ≠ finite 0 0 := by
  have h := stripAux_fst_ne_zero n n e hn
  simp only [normal, hn, if_false]
  intro hc
  injection hc with h1 h2
  cases negative <;> simp at h1 <;> omega

theorem bitLengthAux_spec : ∀ (fuel n : Nat), n ≤ fuel → n ≠ 0 →
    2 ^ (bitLengthAux fuel n - 1) ≤ n ∧ 1 ≤ bitLengthAux fuel n := by
  intro fuel
  induction fuel with
  | zero => intro n h h0; omega
  | succ fuel ih =>
    intro n h h0
    simp only [bitLengthAux, h0, if_false]
    refine ⟨?_, by omega⟩
    simp only [Nat.add_sub_cancel]
    by_cases h2 : n / 2 = 0
    · have e : bitLengthAux fuel (n / 2) = 0 := by
        rw [h2]
        cases fuel <;> simp [bitLengthAux]
      rw [e]
      simp
      omega
    · obtain ⟨h3, h4⟩ := ih (n / 2) (by omega) h2
      obtain ⟨b, hb⟩ : ∃ b, bitLengthAux fuel (n / 2) = b + 1 := ⟨_, (Nat.sub_add_cancel h4).symm⟩
      rw [hb] at h3 ⊢
      simp only [Nat.add_sub_cancel] at h3
      rw [pow_succ]
      omega

theorem bitLength_spec (n : Nat) (h0 : n ≠ 0) : 2 ^ (bitLength n - 1) ≤ n ∧ 1 ≤ bitLength n :=
  bitLengthAux_spec n n (le_refl _) h0

theorem round_tail (negative : Bool) (q : Nat) (e : Int) (hq : q ≠ 0) :
    (if (bitLength q : Int) + e > 1024 then inf negative else normal negative q e)
      ≠ finite 0 0 := by
  split
  · intro hc; exact Double.noConfusion hc
  · exact normal_ne_zero negative q e hq

theorem round_ne_zero (negative : Bool) (n : Nat) (e : Int) (hn : n ≠ 0)
    (he : -1074 ≤ e) : round negative n e ≠ finite 0 0 := by
  obtain ⟨hb, hb1⟩ := bitLength_spec n hn
  simp only [round, hn, if_false]
  by_cases hd : max ((bitLength n : Int) - 53) (-1074 - e) ≤ 0
  · simp only [hd, if_true]
    exact round_tail negative n e hn
  · simp only [hd, if_false]
    have hmax : max ((bitLength n : Int) - 53) (-1074 - e) = (bitLength n : Int) - 53 := by
      apply max_eq_left
      have : ¬ ((bitLength n : Int) - 53 ≤ 0 ∧ (-1074 - e) ≤ 0) := by
        intro hh
        exact hd (max_le hh.1 hh.2)
      omega
    have hk : 53 < bitLength n := by
      rw [hmax] at hd
      omega
    have hto : ((bitLength n : Int) - 53).toNat = bitLength n - 53 := by omega
    rw [hmax, hto]
    have hq : 1 ≤ n / 2 ^ (bitLength n - 53) := by
      rw [Nat.one_le_div_iff (by positivity)]
      exact le_trans (Nat.pow_le_pow_right (by norm_num) (by omega)) hb
    apply round_tail
    split <;> omega

/-- The difference of two distinct binary64 numbers is not zero (gradual underflow). -/
theorem sub_ne_zero_of_lt {x y : Double} (hx : isBinary64 x = true) (hy : isBinary64 y = true)
    (h : Double.lt x y = true) : x - y ≠ 0 := by
  show sub x y ≠ finite 0 0
  cases x with
  | nan => simp [Double.lt] at h
  | inf a =>
    cases y with
    | nan => simp [Double.lt] at h
    | inf b => cases a <;> cases b <;> simp_all [Double.lt, sub, neg, add]
    | finite m e => cases a <;> simp_all [Double.lt, sub, neg, add]
  | finite m1 e1 =>
    cases y with
    | nan => simp [Double.lt] at h
    | inf b => cases b <;> simp_all [Double.lt, sub, neg, add]
    | finite m2 e2 =>
      simp only [Double.lt, decide_eq_true_eq] at h
      have he1 : -1074 ≤ e1 := by
        simp only [isBinary64, decide_eq_true_eq] at hx
        omega
      have he2 : -1074 ≤ e2 := by
        simp only [isBinary64, decide_eq_true_eq] at hy
        omega
      simp only [sub, neg, add, roundInt]
      apply round_ne_zero
      · intro hc
        have := Int.natAbs_eq_zero.mp hc
        rw [neg_mul] at this
        omega
      · exact le_min he1 he2

end Double

namespace LinearInterpolation

theorem double_findForwardLoop_spec (ts : List Double) (t : Double)
    (hts : ∀ x ∈ ts, x ≠ Double.nan) (ht : t ≠ Double.nan) :
    ∀ (fuel i : Nat) (index : Int), i < ts.length → ts.length - i ≤ fuel →
      (∃ j, ∃ hj : j < ts.length, i ≤ j ∧ Double.lt t ts[j] = true) →
      ∃ k, ∃ hk : k < ts.length, i ≤ k ∧
        findForwardLoop ts ts.length t fuel i index = .ok ((k : Int) - 1) ∧
        Double.lt t ts[k] = true ∧
        ∀ j (hj : j < ts.length), i ≤ j → j < k → Double.le ts[j] t = true := by
  intro fuel
  induction fuel with
  | zero => intro i index hi hf; omega
  | succ fuel ih =>
    intro i index hi hf hex
    by_cases hgt : Double.lt t ts[i] = true
    · refine ⟨i, hi, le_refl _, ?_, hgt, ?_⟩
      · simp [findForwardLoop, hi, vecAt_natCast ts i hi, Outcome.bind, hgt]
      · intro j hj h1 h2; omega
    · have hgt' : Double.lt t ts[i] = false := by simpa using hgt
      obtain ⟨j, hj, hij, htj⟩ := hex
      have hne : j ≠ i := by
        rintro rfl
        exact hgt htj
      have hi1 : i + 1 < ts.length := by omega
      obtain ⟨k, hk, hik, hres, htk, hall⟩ :=
        ih (i + 1) (i : Int) hi1 (by omega) ⟨j, hj, by omega, htj⟩
      refine ⟨k, hk, by omega, ?_, htk, ?_⟩
      · simp [findForwardLoop, hi, vecAt_natCast ts i hi, Outcome.bind, hgt', hres]
      · intro j2 hj2 h1 h2
        by_cases h3 : j2 = i
        · subst h3
          exact Double.le_of_lt_eq_false ht (hts _ (List.getElem_mem _)) hgt'
        · exact hall j2 hj2 (by omega) h2

theorem double_findBackwardLoop_spec (ts : List Double) (t : Double)
    (hts : ∀ x ∈ ts, x ≠ Double.nan) (ht : t ≠ Double.nan) :
    ∀ (i : Nat), i < ts.length →
      (∃ j, ∃ hj : j < ts.length, j ≤ i ∧ Double.le ts[j] t = true) →
      ∃ k, ∃ hk : k < ts.length, k ≤ i ∧
        findBackwardLoop ts t i = .ok (k : Int) ∧
        Double.le ts[k] t = true ∧
        ∀ j (hj : j < ts.length), k < j → j ≤ i → Double.lt t ts[j] = true := by
  intro i
  induction i with
  | zero =>
    intro hi hex
    obtain ⟨j, hj, hj0, htj⟩ := hex
    have : j = 0 := by omega
    subst this
    refine ⟨0, hi, le_refl _, ?_, htj, ?_⟩
    · have := vecAt_natCast ts 0 hi
      simp at this
      simp [findBackwardLoop, this, Outcome.bind]
    · intro j hj h1 h2; omega
  | succ i ih =>
    intro hi hex
    by_cases hle : Double.le ts[i + 1] t = true
    · refine ⟨i + 1, hi, le_refl _, ?_, hle, ?_⟩
      · simp [findBackwardLoop, vecAt_of_eq ts ((i : Int) + 1) (i + 1) (by simp) hi,
          Outcome.bind, hle]
      · intro j hj h1 h2; omega
    · have hle' : Double.le ts[i + 1] t = false := by simpa using hle
      obtain ⟨j, hj, hji, htj⟩ := hex
      have hne : j ≠ i + 1 := by
        rintro rfl
        exact hle htj
      obtain ⟨k, hk, hki, hres, htk, hall⟩ := ih (by omega) ⟨j, hj, by omega, htj⟩
      refine ⟨k, hk, by omega, ?_, htk, ?_⟩
      · simp [findBackwardLoop, vecAt_of_eq ts ((i : Int) + 1) (i + 1) (by simp) hi,
          Outcome.bind, hle', hres]
      · intro j2 hj2 h1 h2
        by_cases h3 : j2 = i + 1
        · subst h3
          exact Double.lt_of_le_eq_false (hts _ (List.getElem_mem _)) ht hle'
        · exact hall j2 hj2 h1 (by omega)

variable {D : Type}

theorem double_find_bound_spec (T : List Double) (Dt : List D) (t : Double) (c : Nat)
    (hT : ∀ x ∈ T, x ≠ Double.nan) (ht : t ≠ Double.nan)
    (hc : c < T.length) (h0 : Double.le T[0] t = true)
    (hlast : Double.lt t T[T.length - 1] = true) :
    ∃ k, ∃ hk : k + 1 < T.length,
      find (bound T Dt (c : Int)) t = .ok (k : Int) ∧ Double.le T[k] t = true ∧
      Double.lt t T[k + 1] = true ∧
      (Double.le T[c] t = true → c ≤ k) ∧ (Double.lt t T[c] = true → k < c) := by
  by_cases hgt : Double.lt t T[c] = true
  · obtain ⟨k, hk, hkc, hres, htk, hall⟩ :=
      double_findBackwardLoop_spec T t hT ht c hc ⟨0, by omega, by omega, h0⟩
    have hne : k ≠ c := by
      rintro rfl
      rw [Double.le_eq_false_of_lt hgt] at htk
      exact Bool.noConfusion htk
    have hk1 : k + 1 < T.length := by omega
    refine ⟨k, hk1, ?_, htk, hall (k + 1) hk1 (by omega) (by omega), ?_, ?_⟩
    · simp [find, bound, deref, Outcome.bind, vecAt_natCast T c hc, hgt, hres]
    · intro h
      rw [Double.le_eq_false_of_lt hgt] at h
      exact Bool.noConfusion h
    · intro _; omega
  · have hgt' : Double.lt t T[c] = false := by simpa using hgt
    obtain ⟨k, hk, hkc, hres, htk, hall⟩ :=
      double_findForwardLoop_spec T t hT ht (T.length - c) c (-1) hc (le_refl _)
        ⟨T.length - 1, by omega, by omega, hlast⟩
    have hne : k ≠ c := by
      rintro rfl
      exact hgt htk
    obtain ⟨m, rfl⟩ : ∃ m, k = m + 1 := ⟨k - 1, by omega⟩
    refine ⟨m, hk, ?_, hall m (by omega) (by omega) (by omega), htk, ?_, ?_⟩
    · simp [find, bound, deref, Outcome.bind, vecAt_natCast T c hc, hgt', hres]
    · intro _; omega
    · intro h; exact absurd h hgt

theorem double_combine_eq [Add D] [SMul Double D] (T : List Double) (Dt : List D)
    (hD : Dt.length = T.length) (t : Double) (k : Nat) (hk : k + 1 < T.length) :
    combine T Dt (k : Int) t
      = .ok (((t - T[k + 1]) / (T[k] - T[k + 1])) • Dt[k]
          + (1 - (t - T[k + 1]) / (T[k] - T[k + 1])) • Dt[k + 1]) := by
  have e1 : vecAt T ((k : Int) + 1) = .ok T[k + 1] := vecAt_of_eq T _ (k + 1) (by simp) hk
  have e2 : vecAt T (k : Int) = .ok T[k] := vecAt_natCast T k (by omega)
  have e3 : vecAt Dt ((k : Int) + 1) = .ok Dt[k + 1] :=
    vecAt_of_eq Dt _ (k + 1) (by simp) (by omega)
  have e4 : vecAt Dt (k : Int) = .ok Dt[k] := vecAt_natCast Dt k (by omega)
  simp [combine, alpha, e1, e2, e3, e4, Outcome.bind]

theorem double_interpolate_front [Zero D] [Add D] [SMul Double D] (T : List Double) (Dt : List D)
    (hD : Dt.length = T.length) (hn : 0 < T.length) (c h : Int) (t : Double)
    (ht : Double.le t T[0] = true) :
    interpolate (bound T Dt c) t h = (.ok Dt[0], bound T Dt 0) := by
  simp [interpolate, bound, hD, vecFront_eq T hn, vecFront_eq Dt (by omega), ht]

theorem double_interpolate_back [Zero D] [Add D] [SMul Double D] (T : List Double) (Dt : List D)
    (hD : Dt.length = T.length) (hn : 0 < T.length) (c h : Int) (t : Double)
    (ht0 : Double.le t T[0] = false) (ht : Double.le T[T.length - 1] t = true) :
    interpolate (bound T Dt c) t h
      = (.ok Dt[T.length - 1], bound T Dt ((T.length : Int) - 1)) := by
  have e : vecBack Dt = .ok Dt[T.length - 1] := by
    rw [vecBack_eq Dt (by omega)]
    simp [hD]
  simp [interpolate, bound, hD, vecFront_eq T hn, ht0, vecBack_eq T hn, ht, e]

theorem double_interpolate_search [Zero D] [Add D] [SMul Double D] (T : List Double) (Dt : List D)
    (hD : Dt.length = T.length) (hn : 0 < T.length) (c : Int) (t : Double)
    (ht0 : Double.le t T[0] = false) (ht : Double.le T[T.length - 1] t = false)
    (k : Int) (hk : find (bound T Dt c) t = .ok k) :
    interpolate (bound T Dt c) t (-1) = (combine T Dt k t, bound T Dt k) := by
  have hk2 := hk
  simp only [bound] at hk2
  simp [interpolate, bound, hD, vecFront_eq T hn, ht0, vecBack_eq T hn, ht, hk2]

/-- An unhinted query in `double` arithmetic, at a time that is not NaN, on time stamps
none of which is NaN, from a cached index inside the vector: in front of the range it
returns `D[0]`, behind it `D[n-1]`, and inside it the rounded combination at the
bracketing index, which it caches. -/
theorem double_interpolate_cases [Zero D] [Add D] [SMul Double D] (T : List Double) (Dt : List D)
    (hD : Dt.length = T.length) (hT : ∀ x ∈ T, x ≠ Double.nan) (c : Nat)
    (hc : c < T.length) (t : Double) (ht : t ≠ Double.nan) :
    (Double.le t T[0] = true ∧
        interpolate (bound T Dt (c : Int)) t (-1) = (.ok Dt[0], bound T Dt 0)) ∨
      (Double.lt T[0] t = true ∧ Double.le T[T.length - 1] t = true ∧
        interpolate (bound T Dt (c : Int)) t (-1)
          = (.ok Dt[T.length - 1], bound T Dt ((T.length : Int) - 1))) ∨
      (Double.lt T[0] t = true ∧ Double.lt t T[T.length - 1] = true ∧
        ∃ k, ∃ hk : k + 1 < T.length,
          find (bound T Dt (c : Int)) t = .ok (k : Int) ∧
          Double.le T[k] t = true ∧ Double.lt t T[k + 1] = true ∧
          (Double.le T[c] t = true → c ≤ k) ∧ (Double.lt t T[c] = true → k < c) ∧
          interpolate (bound T Dt (c : Int)) t (-1)
            = (.ok (((t - T[k + 1]) / (T[k] - T[k + 1])) • Dt[k]
                + (1 - (t - T[k + 1]) / (T[k] - T[k + 1])) • Dt[k + 1]),
               bound T Dt (k : Int))) := by
  have hn : 0 < T.length := by omega
  have h0n : T[0] ≠ Double.nan := hT _ (List.getElem_mem _)
  have hln : T[T.length - 1] ≠ Double.nan := hT _ (List.getElem_mem _)
  by_cases h1 : Double.le t T[0] = true
  · exact Or.inl ⟨h1, double_interpolate_front T Dt hD hn c (-1) t h1⟩
  · have h1' : Double.le t T[0] = false := by simpa using h1
    have h1lt := Double.lt_of_le_eq_false ht h0n h1'
    by_cases h2 : Double.le T[T.length - 1] t = true
    · exact Or.inr (Or.inl ⟨h1lt, h2, double_interpolate_back T Dt hD hn c (-1) t h1' h2⟩)
    · have h2' : Double.le T[T.length - 1] t = false := by simpa using h2
      have h2lt := Double.lt_of_le_eq_false hln ht h2'
      obtain ⟨k, hk, hf, ha, hb, hc1, hc2⟩ :=
        double_find_bound_spec T Dt t c hT ht hc (Double.le_of_lt_eq_true h1lt) h2lt
      refine Or.inr (Or.inr ⟨h1lt, h2lt, k, hk, hf, ha, hb, hc1, hc2, ?_⟩)
      rw [double_interpolate_search T Dt hD hn c t h1' h2' _ hf, double_combine_eq T Dt hD t k hk]

/-- An unhinted query in `double` arithmetic on the interior branch, at a time that is
not NaN, on time stamps none of which is NaN, from a cached index inside the vector:
it returns the rounded combination at the bracketing index, which it caches. -/
theorem double_interpolate_interior [Zero D] [Add D] [SMul Double D] (T : List Double)
    (Dt : List D) (hD : Dt.length = T.length) (hT : ∀ x ∈ T, x ≠ Double.nan) (c : Nat)
    (hc : c < T.length) (t : Double) (ht : t ≠ Double.nan)
    (h1 : Double.le t T[0] = false) (h2 : Double.le T[T.length - 1] t = false) :
    ∃ k, ∃ hk : k + 1 < T.length,
      find (bound T Dt (c : Int)) t = .ok (k : Int) ∧
      Double.le T[k] t = true ∧ Double.lt t T[k + 1] = true ∧
      interpolate (bound T Dt (c : Int)) t (-1)
        = (.ok (((t - T[k + 1]) / (T[k] - T[k + 1])) • Dt[k]
            + (1 - (t - T[k + 1]) / (T[k] - T[k + 1])) • Dt[k + 1]),
           bound T Dt (k : Int)) := by
  rcases double_interpolate_cases T Dt hD hT c hc t ht with
    ⟨h3, -⟩ | ⟨-, h3, -⟩ | ⟨-, -, k, hk, hf, ha, hb, -, -, hr⟩
  · rw [h1] at h3; exact Bool.noConfusion h3
  · rw [h2] at h3; exact Bool.noConfusion h3
  · exact ⟨k, hk, hf, ha, hb, hr⟩

/-- One call of a client's sequence that passes no NaN preserves the index-range
invariant and leaves the time stamps free of NaN. -/
theorem double_afterCall_indexInRange {D : Type} [Zero D] [Add D] [SMul Double D]
    (s : LinearInterpolation D) (call : Call D) (hs : IndexInRange s) (hnan : NoNaN s)
    (hcall : Call.noNaN call) :
    IndexInRange (afterCall s call) ∧ NoNaN (afterCall s call) := by
  obtain ⟨T, Dt, hT, hsz, hDt, h0, h1⟩ := hs
  have hTn : ∀ x ∈ T, x ≠ Double.nan := hnan T hT
  cases call with
  | setTimeStamp a ts =>
    refine ⟨⟨a :: ts, Dt, ?_, ?_, ?_, ?_, ?_⟩, ?_⟩
    · simp [afterCall, setTimeStamp, reset]
    · simp [afterCall, setTimeStamp, reset]
    · simp [afterCall, setTimeStamp, reset, hDt]
    · simp [afterCall, setTimeStamp, reset]
    · simp [afterCall, setTimeStamp, reset]
    · intro T2 hT2
      have e : T2 = a :: ts := by
        simp [afterCall, setTimeStamp, reset] at hT2
        exact hT2.symm
      subst e
      exact hcall
  | setData d =>
    refine ⟨⟨T, d, ?_, ?_, ?_, ?_, ?_⟩, ?_⟩
    · simp [afterCall, setData, reset, hT]
    · simp [afterCall, setData, reset, hsz]
    · simp [afterCall, setData, reset]
    · simp [afterCall, setData, reset]
    · simp [afterCall, setData, reset]
      omega
    · intro T2 hT2
      have e : T2 = T := by
        simp [afterCall, setData, reset, hT] at hT2
        exact hT2.symm
      subst e
      exact hTn
  | reset =>
    refine ⟨⟨T, Dt, ?_, ?_, ?_, ?_, ?_⟩, ?_⟩
    · simp [afterCall, reset, hT]
    · simp [afterCall, reset, hsz]
    · simp [afterCall, reset, hDt]
    · simp [afterCall, reset]
    · simp [afterCall, reset]
      omega
    · intro T2 hT2
      have e : T2 = T := by
        simp [afterCall, reset, hT] at hT2
        exact hT2.symm
      subst e
      exact hTn
  | setZero =>
    refine ⟨⟨T, Dt, ?_, ?_, ?_, ?_, ?_⟩, ?_⟩
    · simp [afterCall, setZero, reset, hT]
    · simp [afterCall, setZero, reset, hsz]
    · simp [afterCall, setZero, reset, hDt]
    · simp [afterCall, setZero, reset]
    · simp [afterCall, setZero, reset]
      omega
    · intro T2 hT2
      have e : T2 = T := by
        simp [afterCall, setZero, reset, hT] at hT2
        exact hT2.symm
      subst e
      exact hTn
  | interpolate t =>
    have hn : 0 < T.length := by omega
    have hkeep : (interpolate s t (-1)).2 = s →
        IndexInRange (afterCall s (Call.interpolate t)) ∧
          NoNaN (afterCall s (Call.interpolate t)) := by
      intro e
      simp only [afterCall, e]
      exact ⟨⟨T, Dt, hT, hsz, hDt, h0, h1⟩, hnan⟩
    by_cases hz : s.zeroFunction_ = true
    · exact hkeep (by simp [interpolate, hz])
    · by_cases hD : Dt.length = T.length
      · obtain ⟨c, hc⟩ : ∃ c : Nat, s.index_ = (c : Int) := ⟨s.index_.toNat, by omega⟩
        have hcl : c < T.length := by omega
        have hs' : s = bound T Dt (c : Int) := by
          cases s
          simp only [bound] at *
          simp_all
        have hbound : ∀ k : Int, 0 ≤ k → k < (T.length : Int) →
            (interpolate s t (-1)).2 = bound T Dt k →
            IndexInRange (afterCall s (Call.interpolate t)) ∧
              NoNaN (afterCall s (Call.interpolate t)) := by
          intro k hk0 hk1 e
          simp only [afterCall, e]
          refine ⟨⟨T, Dt, rfl, rfl, rfl, hk0, hk1⟩, ?_⟩
          intro T2 hT2
          have e2 : T2 = T := by
            simp [bound] at hT2
            exact hT2.symm
          subst e2
          exact hTn
        rcases double_interpolate_cases T Dt hD hTn c hcl t hcall with
          ⟨-, hr⟩ | ⟨-, -, hr⟩ | ⟨-, -, k, hk, -, -, -, -, -, hr⟩
        · rw [← hs'] at hr
          exact hbound 0 (by omega) (by omega) (by rw [hr])
        · rw [← hs'] at hr
          exact hbound ((T.length : Int) - 1) (by omega) (by omega) (by rw [hr])
        · rw [← hs'] at hr
          exact hbound (k : Int) (by omega) (by omega) (by rw [hr])
      · exact hkeep (by simp [interpolate, hz, hDt, hsz, hD])

theorem double_afterCalls_indexInRange {D : Type} [Zero D] [Add D] [SMul Double D]
    (calls : List (Call D)) :
    ∀ s : LinearInterpolation D, IndexInRange s → NoNaN s →
      (∀ call ∈ calls, Call.noNaN call) →
      IndexInRange (afterCalls s calls) ∧ NoNaN (afterCalls s calls) := by
  induction calls with
  | nil => intro s h1 h2 _; exact ⟨h1, h2⟩
  | cons call calls ih =>
    intro s h1 h2 h3
    obtain ⟨h4, h5⟩ := double_afterCall_indexInRange s call h1 h2 (h3 call (List.mem_cons_self _ _))
    exact ih (afterCall s call) h4 h5 (fun c hc => h3 c (List.mem_cons_of_mem _ hc))

end LinearInterpolation

end IEEE
end ocs2

/-! ## The claims C11 to C20 -/

namespace ocs2
namespace NullLogicRules

/-- C11 (`NullLogicRules` is a strict no-op): each of the five hooks `rewind`,
`update`, `setModeSequenceTemplate`, `insertModeSequenceTemplate` and `adjustController`
returns normally for all arguments and leaves the logic-rules object unchanged;
`adjustController` also leaves the `controllerStock`, passed by mutable reference,
unchanged (the other arguments are passed by const reference). -/
theorem hooks_are_noops {Base Controller Template : Type} (self : NullLogicRules Base)
    (lowerBoundTime upperBoundTime startTime finalTime : ℚ)
    (modeSequenceTemplate : Template) (eventTimes controllerEventTimes : List ℚ)
    (controllerStock : List Controller) :
    rewind self lowerBoundTime upperBoundTime = (.ok (), self) ∧
      update self = (.ok (), self) ∧
      setModeSequenceTemplate self modeSequenceTemplate = (.ok (), self) ∧
      insertModeSequenceTemplate self startTime finalTime = (.ok (), self) ∧
      adjustController self eventTimes controllerEventTimes controllerStock
        = (.ok (), self, controllerStock) :=
  ⟨rfl, rfl, rfl, rfl, rfl⟩

end NullLogicRules
namespace PrimalSolution

open Matrix

/-- C13 (open loop and closed loop agree on the nominal trajectory): for a solution with
strictly increasing times and state, input and gain trajectories of the length of the
time trajectory, evaluating the feedback controller at a nominal sample,
`computeInput(timeTrajectory[i], stateTrajectory[i])`, returns the stored input
`inputTrajectory[i]`, for every sample `i` (the last one included) and whatever the
gains are, hence whether or not the constraints were projected. -/
theorem computeInput_at_nominal {n m : Type} [Fintype n] (sol : PrimalSolution n m)
    (hT : List.Sorted (· < ·) sol.timeTrajectory_)
    (hx : sol.stateTrajectory_.length = sol.timeTrajectory_.length)
    (hu : sol.inputTrajectory_.length = sol.timeTrajectory_.length)
    (hK : sol.gainTrajectory_.length = sol.timeTrajectory_.length)
    (i : Nat) (hi : i < sol.timeTrajectory_.length) :
    computeInput sol sol.timeTrajectory_[i] sol.stateTrajectory_[i]
      = .ok sol.inputTrajectory_[i] := by
  have e1 := LinearInterpolation.knot_value sol.timeTrajectory_ sol.inputTrajectory_ hT hu
    i 0 hi (by omega)
  have e2 := LinearInterpolation.knot_value sol.timeTrajectory_ sol.gainTrajectory_ hT hK
    i 0 hi (by omega)
  have e3 := LinearInterpolation.knot_value sol.timeTrajectory_ sol.stateTrajectory_ hT hx
    i 0 hi (by omega)
  simp only [Nat.cast_zero] at e1 e2 e3
  simp [computeInput, e1, e2, e3, Outcome.bind]

/-- Witness for C13: three samples of a one-dimensional solution, evaluated at the
second sample. -/
theorem computeInput_at_nominal_witness :
    computeInput
        ({ timeTrajectory_ := [0, 1, 2],
           stateTrajectory_ := [![1], ![2], ![4]],
           inputTrajectory_ := [![5], ![6], ![7]],
           gainTrajectory_ := [!![1], !![2], !![3]] } : PrimalSolution (Fin 1) (Fin 1))
        1 ![2]
      = .ok ![6] :=
  computeInput_at_nominal
    ({ timeTrajectory_ := [0, 1, 2],
       stateTrajectory_ := [![1], ![2], ![4]],
       inputTrajectory_ := [![5], ![6], ![7]],
       gainTrajectory_ := [!![1], !![2], !![3]] } : PrimalSolution (Fin 1) (Fin 1))
    (by decide) rfl rfl rfl 1 (by decide)

end PrimalSolution
namespace LinearInterpolation

end LinearInterpolation
namespace IEEE
namespace LinearInterpolation

end LinearInterpolation
end IEEE
namespace LinearInterpolation

/-- C15 (an explicit hint bypasses the search and is not validated): for time stamps
`T` with at least two entries (sorted or not), matching data, `T[0] < t < T[n-1]` and a
hint `h` with `0 ≤ h ≤ n-2`, whatever the cached index and whether or not
`T[h] ≤ t < T[h+1]`, the call returns `a • Dt[h] + (1 - a) • Dt[h+1]` with
`a = (t - T[h+1]) / (T[h] - T[h+1])` and sets the cached index to `h`. -/
theorem interpolate_with_hint {D : Type} [Zero D] [Add D] [SMul ℚ D] (T : List ℚ)
    (Dt : List D) (hD : Dt.length = T.length) (c : Int) (h : Nat) (hh : h + 1 < T.length)
    (t : ℚ) (ht0 : T[0] < t) (ht : t < T[T.length - 1]) :
    (interpolate (bound T Dt c) t (h : Int)).1
        = .ok (((t - T[h + 1]) / (T[h] - T[h + 1])) • Dt[h]
            + (1 - (t - T[h + 1]) / (T[h] - T[h + 1])) • Dt[h + 1]) ∧
      (interpolate (bound T Dt c) t (h : Int)).2 = bound T Dt (h : Int) ∧
      getGreatestLessTimeStampIndex (interpolate (bound T Dt c) t (h : Int)).2 = (h : Int) := by
  rw [interpolate_hint T Dt hD (by omega) c (h : Int) t ht0 ht (by omega),
    combine_eq T Dt hD t h hh]
  exact ⟨rfl, rfl, rfl⟩

/-- Witness for C15: the hint `1` although the query time `1/2` lies in the interval
of index `0`; the call extrapolates from the samples `1` and `2`. -/
theorem interpolate_with_hint_witness :
    (interpolate (bound [0, 1, 2] [(0 : ℚ), 10, 40] 0) (1 / 2) 1).1 = .ok (-5) ∧
      (interpolate (bound [0, 1, 2] [(0 : ℚ), 10, 40] 0) (1 / 2) 1).2
        = bound [0, 1, 2] [(0 : ℚ), 10, 40] 1 := by
  have h := interpolate_with_hint [0, 1, 2] [(0 : ℚ), 10, 40] rfl 0 1 (by decide) (1 / 2)
    (by norm_num) (by norm_num)
  refine ⟨h.1.trans ?_, h.2.1⟩
  norm_num


/-- C16 (zero mode lasts until a rebind): after `setZero()`, each of `reset()`, a
successful `setTimeStamp` and a successful `setData` clears the zero-function flag and
sets the cached index to `0` without touching the other binding.  On an interpolator
then bound to the time stamps `T` and the data `Dt`, an unhinted query after any of the
three again returns the clamped linear interpolation: `Dt[0]` for `t ≤ T[0]`,
`Dt[n-1]` for `t ≥ T[n-1]`, and between them the combination of `Dt[i]` and `Dt[i+1]`
at an index with `T[i] ≤ t < T[i+1]`.  An `interpolate` call in zero mode returns zero
and leaves the object, the flag included, as it was. -/
theorem zero_mode_until_rebind {D : Type} [Zero D] [Add D] [SMul ℚ D]
    (s : LinearInterpolation D) (T T0 : List ℚ) (Dt Dt0 : List D)
    (hD : Dt.length = T.length) (hn : 0 < T.length) (c h : Int) (t : ℚ) :
    (reset (setZero s) = { s with index_ := 0, zeroFunction_ := false }) ∧
      (setTimeStamp (setZero s) (some T)
        = (.ok (), { s with index_ := 0, zeroFunction_ := false,
                            timeStampSize_ := T.length, timeStampPtr_ := some T })) ∧
      (setData (setZero s) (some Dt)
        = (.ok (), { s with index_ := 0, zeroFunction_ := false, dataPtr_ := some Dt })) ∧
      (∀ s1 : LinearInterpolation D,
        (s1 = reset (setZero (bound T Dt c)) ∨
          s1 = (setTimeStamp (setZero (bound T0 Dt c)) (some T)).2 ∨
          s1 = (setData (setZero (bound T Dt0 c)) (some Dt)).2) →
        s1.zeroFunction_ = false ∧ s1.index_ = 0 ∧
        (t ≤ T[0] → (interpolate s1 t (-1)).1 = .ok Dt[0]) ∧
        (T[0] < t → T[T.length - 1] ≤ t →
          (interpolate s1 t (-1)).1 = .ok Dt[T.length - 1]) ∧
        (T[0] < t → t < T[T.length - 1] →
          ∃ i : Nat, ∃ hi : i + 1 < T.length, T[i] ≤ t ∧ t < T[i + 1] ∧
            (interpolate s1 t (-1)).1
              = .ok (((t - T[i + 1]) / (T[i] - T[i + 1])) • Dt[i]
                  + (1 - (t - T[i + 1]) / (T[i] - T[i + 1])) • Dt[i + 1]))) ∧
      (interpolate (setZero s) t h = (.ok 0, setZero s) ∧
        (interpolate (setZero s) t h).2.zeroFunction_ = true ∧
        (interpolate (interpolate (setZero s) t h).2 t h).1 = .ok 0) := by
  have hne : T.length ≠ 0 := by omega
  refine ⟨?_, ?_, ?_, ?_, ?_⟩
  · simp [reset, setZero]
  · simp [reset, setZero, setTimeStamp, checkTimeStamp, hne]
  · simp [reset, setZero, setData]
  · intro s1 hs1
    have hs : s1 = bound T Dt ((0 : Nat) : Int) := by
      rcases hs1 with h1 | h1 | h1 <;> rw [h1] <;>
        simp [reset, setZero, setTimeStamp, setData, bound]
    subst hs
    refine ⟨rfl, rfl, ?_, ?_, ?_⟩
    · intro ht
      rw [interpolate_front T Dt hD hn _ (-1) t ht]
    · intro ht0 ht
      rw [interpolate_back T Dt hD hn _ (-1) t ht0 ht]
    · intro ht0 ht
      obtain ⟨k, hk, h1, h2, -, -, hres⟩ := interpolate_interior T Dt hD 0 hn t ht0 ht
      exact ⟨k, hk, h1, h2, by rw [hres]⟩
  · simp [interpolate, setZero, reset]

/-- Witness for C16: zero mode, then `setData`, then a query between the knots. -/
theorem zero_mode_until_rebind_witness :
    (interpolate (setData (setZero (bound [0, 1, 2] [(5 : ℚ), 5, 5] 2))
        (some [(7 : ℚ), 10, 20])).2 0 (-1)).1 = .ok 7 ∧
      (interpolate (setData (setZero (bound [0, 1, 2] [(5 : ℚ), 5, 5] 2))
        (some [(7 : ℚ), 10, 20])).2 3 (-1)).1 = .ok 20 ∧
      (interpolate (setZero (bound [0, 1, 2] [(7 : ℚ), 10, 20] 2)) 3 (-1)).1 = .ok 0 :=
  have h0 := zero_mode_until_rebind (bound [0, 1, 2] [(7 : ℚ), 10, 20] 2) [0, 1, 2] [0, 1, 2]
    [(7 : ℚ), 10, 20] [(5 : ℚ), 5, 5] rfl (by decide) 2 (-1) 0
  have h3 := zero_mode_until_rebind (bound [0, 1, 2] [(7 : ℚ), 10, 20] 2) [0, 1, 2] [0, 1, 2]
    [(7 : ℚ), 10, 20] [(5 : ℚ), 5, 5] rfl (by decide) 2 (-1) 3
  ⟨(h0.2.2.2.1 _ (Or.inr (Or.inr rfl))).2.2.1 (by simp),
    (h3.2.2.2.1 _ (Or.inr (Or.inr rfl))).2.2.2.1 (by norm_num) (by norm_num),
    congrArg Prod.fst h3.2.2.2.2.1⟩

end LinearInterpolation
namespace IEEE
namespace LinearInterpolation

/-- C17 (index range and absence of run-time faults, amended): in `double` arithmetic,
for time stamps `T` of length `n ≥ 1`, sorted or not, none of which is a NaN, data of
the same length, a cached index in `[0, n-1]` and an enquiry time `t` that is not a
NaN, the unhinted query outside zero mode returns (no `out_of_range`), on the interior
branch it selects an index `i ≤ n-2` with `T[i] ≤ t < T[i+1]`, so that the divisor
`T[i] - T[i+1]` computed in `double` is not zero, and it leaves a cached index in
`[0, n-1]`; hence the index-range invariant is preserved by every sequence of successful
binds, `reset`, `setZero` and unhinted queries in which no NaN is passed. -/
theorem index_in_range {D : Type} [Zero D] [Add D] [SMul Double D] (T : List Double)
    (Dt : List D) (hD : Dt.length = T.length) (hn : 0 < T.length)
    (hT : ∀ x ∈ T, x ≠ Double.nan) (c : Nat) (hc : c < T.length) (t : Double)
    (ht : t ≠ Double.nan) :
    (interpolate (bound T Dt (c : Int)) t (-1)).1.isOk = true ∧
      (Double.le t T[0] = false → Double.le T[T.length - 1] t = false →
        ∃ i : Nat, ∃ hi : i + 1 < T.length,
          find (bound T Dt (c : Int)) t = .ok (i : Int) ∧
          Double.le T[i] t = true ∧ Double.lt t T[i + 1] = true ∧
          (Double.isBinary64 T[i] = true → Double.isBinary64 T[i + 1] = true →
            T[i] - T[i + 1] ≠ 0) ∧
          (interpolate (bound T Dt (c : Int)) t (-1)).2 = bound T Dt (i : Int)) ∧
      (0 ≤ (interpolate (bound T Dt (c : Int)) t (-1)).2.index_ ∧
        (interpolate (bound T Dt (c : Int)) t (-1)).2.index_ < (T.length : Int)) ∧
      (∀ (s : LinearInterpolation D) (calls : List (Call D)),
        IndexInRange s → NoNaN s → (∀ call ∈ calls, Call.noNaN call) →
        IndexInRange (afterCalls s calls)) := by
  have hcases := double_interpolate_cases T Dt hD hT c hc t ht
  refine ⟨?_, ?_, ?_, ?_⟩
  · rcases hcases with ⟨-, hr⟩ | ⟨-, -, hr⟩ | ⟨-, -, k, hk, -, -, -, -, -, hr⟩ <;>
      rw [hr] <;> rfl
  · intro h1 h2
    rcases hcases with ⟨h3, -⟩ | ⟨-, h3, -⟩ | ⟨-, -, k, hk, hf, ha, hb, -, -, hr⟩
    · rw [h1] at h3; exact Bool.noConfusion h3
    · rw [h2] at h3; exact Bool.noConfusion h3
    · refine ⟨k, hk, hf, ha, hb, ?_, by rw [hr]⟩
      intro hv1 hv2
      exact Double.sub_ne_zero_of_lt hv1 hv2 (Double.le_lt_trans ha hb)
  · rcases hcases with ⟨-, hr⟩ | ⟨-, -, hr⟩ | ⟨-, -, k, hk, -, -, -, -, -, hr⟩ <;>
      rw [hr] <;> simp only [bound] <;> omega
  · intro s calls h1 h2 h3
    exact (double_afterCalls_indexInRange calls s h1 h2 h3).1

/-- Witness for C17: the unsorted stamps `0, 2, 1, 3`, queried at `1.5` from the last
cached index. -/
theorem index_in_range_witness :
    (interpolate (bound [.finite 0 0, .finite 1 1, .finite 1 0, .finite 3 0]
        [Double.finite 0 0, .finite 5 2, .finite 5 1, .finite 15 1] 3)
        (.finite 3 (-1)) (-1)).1.isOk = true ∧
      0 ≤ (interpolate (bound [.finite 0 0, .finite 1 1, .finite 1 0, .finite 3 0]
        [Double.finite 0 0, .finite 5 2, .finite 5 1, .finite 15 1] 3)
        (.finite 3 (-1)) (-1)).2.index_ ∧
      (interpolate (bound [.finite 0 0, .finite 1 1, .finite 1 0, .finite 3 0]
        [Double.finite 0 0, .finite 5 2, .finite 5 1, .finite 15 1] 3)
        (.finite 3 (-1)) (-1)).2.index_ < 4 :=
  have h := index_in_range [.finite 0 0, .finite 1 1, .finite 1 0, .finite 3 0]
    [Double.finite 0 0, .finite 5 2, .finite 5 1, .finite 15 1] rfl (by decide) (by decide)
    3 (by decide) (.finite 3 (-1)) (by decide)
  ⟨h.1, h.2.2.1⟩

/-- Counterexample to C17 as stated: in `double` arithmetic, on the time stamps
`0, 1, 2`, with a cached index `0` inside the vector, the unhinted query outside zero
mode at `t = NaN` throws `out_of_range`.  Both range tests are false, every comparison
of `find` is false, so that its second loop runs to the end and returns `n - 1 = 2`,
which is stored, and `timeStamp.at(3)` throws. -/
theorem index_in_range_counterexample :
    (interpolate (bound [.finite 0 0, .finite 1 0, .finite 1 1]
        [Double.finite 0 0, .finite 5 1, .finite 5 2] 0) .nan (-1)).1
        = .raise .out_of_range ∧
      find (bound [.finite 0 0, .finite 1 0, .finite 1 1]
        [Double.finite 0 0, .finite 5 1, .finite 5 2] 0) .nan = .ok 2 ∧
      (interpolate (bound [.finite 0 0, .finite 1 0, .finite 1 1]
        [Double.finite 0 0, .finite 5 1, .finite 5 2] 0) .nan (-1)).2.index_ = 2 := by
  decide

end LinearInterpolation
end IEEE
namespace LinearInterpolation

end LinearInterpolation
namespace IEEE
namespace LinearInterpolation

end LinearInterpolation
end IEEE
namespace LinearInterpolation

/-- C19 (a query that fails on a bad hint does not preserve the state): for `T` with at
least two stamps (sorted or not), matching data, `T[0] < t < T[n-1]` and a hint
`h ≥ n-1` or `h < -1`, the call throws `out_of_range` after it has stored `h` as cached
index.  If moreover `h ≥ n` or `h < -1`, an unhinted query at any interior time that
follows throws as well and leaves `h` in place; a following query at or outside the first
or last stamp, whatever its hint, returns and leaves a cached index in `[0, n-1]`, and so
do `reset()` and the successful binds. -/
theorem bad_hint_overwrites_index {D : Type} [Zero D] [Add D] [SMul ℚ D] (T : List ℚ)
    (Dt : List D) (hD : Dt.length = T.length) (hn : 2 ≤ T.length) (c : Int) (t : ℚ)
    (ht0 : T[0] < t) (ht : t < T[T.length - 1]) (h : Int)
    (hh : (T.length : Int) - 1 ≤ h ∨ h < -1) :
    interpolate (bound T Dt c) t h = (.raise .out_of_range, bound T Dt h) ∧
      (((T.length : Int) ≤ h ∨ h < -1) → ∀ t1 : ℚ, T[0] < t1 → t1 < T[T.length - 1] →
        interpolate (bound T Dt h) t1 (-1) = (.raise .out_of_range, bound T Dt h)) ∧
      (∀ (t1 : ℚ) (h1 : Int), t1 ≤ T[0] ∨ T[T.length - 1] ≤ t1 →
        (interpolate (bound T Dt h) t1 h1).1.isOk = true ∧
        0 ≤ (interpolate (bound T Dt h) t1 h1).2.index_ ∧
        (interpolate (bound T Dt h) t1 h1).2.index_ < (T.length : Int)) ∧
      (reset (bound T Dt h) = bound T Dt 0) ∧
      (∀ (a : ℚ) (ts : List ℚ),
        setTimeStamp (bound T Dt h) (some (a :: ts)) = (.ok (), bound (a :: ts) Dt 0)) ∧
      (∀ d : List D, setData (bound T Dt h) (some d) = (.ok (), bound T d 0)) := by
  have hn0 : 0 < T.length := by omega
  refine ⟨?_, ?_, ?_, ?_, ?_, ?_⟩
  · have hne : h ≠ -1 := by omega
    rw [interpolate_hint T Dt hD hn0 c h t ht0 ht hne]
    have e : vecAt T (h + 1) = .raise .out_of_range := by
      rcases hh with h1 | h1
      · exact vecAt_ge T (h + 1) (by omega)
      · exact vecAt_neg T (h + 1) (by omega)
    simp [combine, alpha, e, Outcome.bind]
  · intro hh2 t1 h0 h1
    exact interpolate_search_raise T Dt hD hn0 h t1 h0 h1 _
      (find_bound_out_of_range T Dt h t1 (by omega))
  · intro t1 h1 hcl
    by_cases hf : t1 ≤ T[0]
    · rw [interpolate_front T Dt hD hn0 h h1 t1 hf]
      refine ⟨rfl, ?_, ?_⟩ <;> simp only [bound] <;> omega
    · have hb : T[T.length - 1] ≤ t1 := by
        rcases hcl with h2 | h2
        · exact absurd h2 hf
        · exact h2
      rw [interpolate_back T Dt hD hn0 h h1 t1 (not_le.mp hf) hb]
      refine ⟨rfl, ?_, ?_⟩ <;> simp only [bound] <;> omega
  · simp [reset, bound]
  · intro a ts
    simp [setTimeStamp, reset, bound, checkTimeStamp]
  · intro d
    simp [setData, reset, bound]

/-- Witness for C19: the hint `7` on three knots, then an unhinted interior query. -/
theorem bad_hint_overwrites_index_witness :
    interpolate (bound [0, 1, 2] [(0 : ℚ), 10, 20] 0) (1 / 2) 7
        = (.raise .out_of_range, bound [0, 1, 2] [(0 : ℚ), 10, 20] 7) ∧
      interpolate (bound [0, 1, 2] [(0 : ℚ), 10, 20] 7) (3 / 2) (-1)
        = (.raise .out_of_range, bound [0, 1, 2] [(0 : ℚ), 10, 20] 7) :=
  have h := bad_hint_overwrites_index [0, 1, 2] [(0 : ℚ), 10, 20] rfl (by decide) 0 (1 / 2)
    (by norm_num) (by norm_num) 7 (by decide)
  ⟨h.1, h.2.1 (by decide) (3 / 2) (by norm_num) (by norm_num)⟩

end LinearInterpolation
namespace LoopshapingCostOutputPattern

open Matrix

end LoopshapingCostOutputPattern
end ocs2

/-! ## The claim C21 -/

namespace ocs2
namespace LoopshapingCostOutputPattern

open Matrix

/-- A congruence `g • Aᵀ * H * A` of a symmetric matrix `H` is symmetric. -/
theorem isSymm_smul_transpose_mul_mul {m n : Type} [Fintype m] (g : ℚ) (A : Matrix m n ℚ)
    (H : Matrix m m ℚ) (hH : H.IsSymm) : (g • Aᵀ * H * A).IsSymm := by
  unfold Matrix.IsSymm
  simp only [Matrix.transpose_mul, Matrix.transpose_smul, Matrix.transpose_transpose, hH.eq,
    Matrix.smul_mul, Matrix.mul_smul, Matrix.mul_assoc]

end LoopshapingCostOutputPattern
end ocs2
